import Mathlib

/-!
A verification development for the `jammdb` storage engine.

This file gives a shallow embedding, in Lean, of the parts of the `jammdb`
embedded key/value store that its specification talks about:

* byte-string keys and the binary search used by pages and nodes
  (`src/page_node.rs`, `PageNode::index`),
* the in-memory bucket tree with `get` / `put` / `delete` /
  `create_bucket` / `delete_bucket` (`src/bucket.rs`),
* the freelist with its pending-release queues (`src/freelist.rs`),
* meta-page selection at open (`src/db.rs`, `DBInner::meta`) together
  with the FNV-1a self-hash (`src/meta.rs`),
* node splitting (`src/node.rs`, `Node::split`),
* the page walk of `delete_bucket`.

Machine integers are modelled as `Nat` (with explicit `% 2^64` where
overflow matters, i.e. in the FNV hash); byte strings are `List Nat`.
Every definition is translated from the Rust source; functions that can
panic in Rust return an explicit `panicked` outcome.
-/

namespace JammDB

/-! Byte strings and their order

Rust compares `&[u8]` lexicographically; `cmpBytes` is that comparison
(`Ord::cmp` on byte slices). -/
abbrev ByteStr := List Nat

def cmpBytes : ByteStr → ByteStr → Ordering
  | [], [] => .eq
  | [], _ :: _ => .lt
  | _ :: _, [] => .gt
  | a :: as, b :: bs =>
    match compare a b with
    | .eq => cmpBytes as bs
    | .lt => .lt
    | .gt => .gt

/-- `a` is strictly below `b` in Rust's byte-slice order. -/
def ltB (a b : ByteStr) : Prop := cmpBytes a b = .lt

instance : DecidablePred fun p : ByteStr × ByteStr => ltB p.1 p.2 := by
  intro p
  unfold ltB
  infer_instance

instance (a b : ByteStr) : Decidable (ltB a b) := by
  unfold ltB
  infer_instance

/-! Rust's `slice::binary_search_by`

Faithful model of the standard-library routine used by
`binary_search_by_key` in `page_node.rs`, `node.rs` and `bucket.rs`:

```text
while left < right {
    let mid = left + (right - left) / 2;
    match f(mid) { Less => left = mid + 1, Greater => right = mid,
                   Equal => return Ok(mid) }
}
Err(left)
```

The loop is modelled with explicit fuel; `right - left` shrinks at every
iteration, so `fuel = len` always suffices. `f i` compares element `i`
against the searched key. -/
def bsGo (f : Nat → Ordering) : Nat → Nat → Nat → Sum Nat Nat
  | 0, left, _ => .inr left
  | fuel + 1, left, right =>
    if left < right then
      let mid := left + (right - left) / 2
      match f mid with
      | .lt => bsGo f fuel (mid + 1) right
      | .gt => bsGo f fuel left mid
      | .eq => .inl mid
    else .inr left

/-- `binary_search_by` over an index range `[0, len)`. `Sum.inl i` models
`Ok(i)` and `Sum.inr i` models `Err(i)`. -/
def binarySearch (f : Nat → Ordering) (len : Nat) : Sum Nat Nat :=
  bsGo f len 0 len

/-! Entries (the `Leaf` enum of `node.rs`)

A leaf element is either key/value data (`Leaf::Kv`) or a named
sub-bucket carrying its `BucketMeta` (`Leaf::Bucket`). -/
/-- `BucketMeta` from `bucket.rs`: `{root_page, next_int}`. -/
structure BucketMeta where
  rootPage : Nat
  nextInt : Nat
deriving DecidableEq, Repr

/-- `BucketMeta::default()` — both fields zero. -/
def defaultBucketMeta : BucketMeta := ⟨0, 0⟩

inductive Entry where
  | kv (key value : ByteStr)
  | bucketE (name : ByteStr) (meta : BucketMeta)
deriving DecidableEq, Repr

namespace Entry

def key : Entry → ByteStr
  | .kv k _ => k
  | .bucketE n _ => n

/-- `Leaf::is_kv`. -/
def isKv : Entry → Bool
  | .kv _ _ => true
  | .bucketE _ _ => false

end Entry

/-- The key of element `i`; Rust indexes `self[mid]` only in bounds, the
default value is never consulted by in-range calls. -/
def keyAt (items : List Entry) (i : Nat) : ByteStr :=
  (items.get? i |>.map Entry.key).getD []

/-- `binary_search_by_key(&key, |l| l.key())` over a slice of leaf
elements. -/
def entrySearch (items : List Entry) (k : ByteStr) : Sum Nat Nat :=
  binarySearch (fun i => cmpBytes (keyAt items i) k) items.length

/-- `PageNode::index` (`page_node.rs`): binary search, and on a miss point
at the element just before the missing one (`i.saturating_sub(1)`; `Nat`
subtraction is saturating). -/
def indexOf (items : List Entry) (k : ByteStr) : Nat × Bool :=
  match entrySearch items k with
  | .inl i => (i, true)
  | .inr i => (i - 1, false)

/-- Strictly increasing keys: the sortedness invariant of every leaf/node
(`§3` of the spec, maintained by `Node::insert_data`). -/
def SortedEntries (items : List Entry) : Prop :=
  List.Pairwise (fun a b => ltB a.key b.key) items

instance (items : List Entry) : Decidable (SortedEntries items) := by
  unfold SortedEntries
  infer_instance

/-! `Node::insert_data` and lookups on leaf nodes

`insert_data` (`node.rs`) binary-searches the leaves for the new leaf's
key and either replaces in place (`Ok(i)`) or inserts at the returned
position (`Err(i)`, `Vec::insert`).  `getEntry` is the read path used by
`InnerBucket::get`: `index` followed by `val`.  `insertLin` / `lookupLin`
are linear reference implementations; on sorted entries they agree with
the binary-search versions, which is how all later proofs avoid
re-reasoning about the loop. -/
def insertData (e : Entry) (items : List Entry) : List Entry :=
  match entrySearch items e.key with
  | .inl i => items.set i e
  | .inr i => items.take i ++ e :: items.drop i

def getEntry (items : List Entry) (k : ByteStr) : Option Entry :=
  match indexOf items k with
  | (i, true) => items.get? i
  | (_, false) => none

def insertLin (e : Entry) : List Entry → List Entry
  | [] => [e]
  | x :: rest =>
    match cmpBytes x.key e.key with
    | .lt => x :: insertLin e rest
    | .eq => e :: rest
    | .gt => e :: x :: rest

def lookupLin (k : ByteStr) : List Entry → Option Entry
  | [] => none
  | x :: rest =>
    match cmpBytes x.key k with
    | .eq => some x
    | _ => lookupLin k rest

/-! The bucket tree

Logical content of a bucket's B+ tree during a transaction.  A branch
page holds keyed children (`BranchElement {page, key}`; the child page id
is replaced here by the child subtree itself, since `search` immediately
follows it via `page_node`).  A leaf page holds `Entry` elements.  The
in-memory `Node` materialization (`InnerBucket::node`) copies a page's
elements verbatim (`Node::from_page`), so one tree describes both the
clean pages and the dirty nodes seen through `PageNode`. -/
inductive PTree where
  | leafN (items : List Entry)
  | branchN (branches : List (ByteStr × PTree))

/-- Key of branch element `i` (`BranchElement::key`). -/
def branchKeyAt (bs : List (ByteStr × PTree)) (i : Nat) : ByteStr :=
  (bs.get? i |>.map Prod.fst).getD []

/-- `PageNode::index` on a branch page. -/
def indexBranch (bs : List (ByteStr × PTree)) (k : ByteStr) : Nat × Bool :=
  match binarySearch (fun i => cmpBytes (branchKeyAt bs i) k) bs.length with
  | .inl i => (i, true)
  | .inr i => (i - 1, false)

/-- Result of `cursor::search`: the last stack frame.  `search` loops
down the tree; it ends on a leaf frame, or returns early with
`exists = false` when `index_page` yields page id 0 (out-of-range child
index, only possible on an empty branch). -/
inductive SearchFrame where
  | leafF (items : List Entry) (index : Nat) (exact : Bool)
  | deadEnd

mutual

/-- `cursor::search` (`cursor.rs`): repeated `index` + `index_page`
descent from the root.  `searchChild bs i k` realizes "follow
`index_page(i)`": it walks to branch element `i` (`bs.get? i`) and
descends into its child; an out-of-range index is `next_page_id == 0`. -/
def searchT : PTree → ByteStr → SearchFrame
  | .leafN items, k =>
    let p := indexOf items k
    .leafF items p.1 p.2
  | .branchN bs, k => searchChild bs (indexBranch bs k).1 k

def searchChild : List (ByteStr × PTree) → Nat → ByteStr → SearchFrame
  | [], _, _ => .deadEnd
  | c :: _, 0, k => searchT c.2 k
  | _ :: rest, i + 1, k => searchChild rest i k

end

mutual

/-- Apply a leaf-level mutation at the leaf that `search` finds for `k`;
this is what `InnerBucket::node(last.id)` + the node mutation amount to,
since the materialized node holds exactly that page's elements and branch
contents are untouched by leaf mutations inside a transaction (branch
keys/pages only change during rebalance/spill).  `updateChild` rebuilds
the branch list with child `i` replaced by its updated subtree, keeping
the stored key. -/
def updateAt : PTree → ByteStr → (List Entry → List Entry) → PTree
  | .leafN items, _, f => .leafN (f items)
  | .branchN bs, k, f => .branchN (updateChild bs (indexBranch bs k).1 k f)

def updateChild :
    List (ByteStr × PTree) → Nat → ByteStr → (List Entry → List Entry) →
      List (ByteStr × PTree)
  | [], _, _, _ => []
  | c :: rest, 0, k, f => (c.1, updateAt c.2 k f) :: rest
  | c :: rest, i + 1, k, f => c :: updateChild rest i k f

end

/-- Well-formed bucket tree: every leaf strictly sorted and every branch
nonempty (`§3`: keys strictly increasing; a committed branch page always
has at least one element). -/
inductive WfT : PTree → Prop
  | leaf {items : List Entry} : SortedEntries items → WfT (.leafN items)
  | branch {bs : List (ByteStr × PTree)} :
      bs ≠ [] → (∀ c ∈ bs, WfT c.2) → WfT (.branchN bs)

/-! Bucket operations (`bucket.rs`)

`BState` is the observable state of one `InnerBucket`: the logical tree
content, `meta.next_int`, and the names in the `buckets` map (the
transaction's cache of opened/created sub-buckets).  Rust functions that
can panic return an explicit `.panicked` outcome; on an `Err` return the
Rust code has not touched any observable state, and the model returns
the input state unchanged alongside the error. -/
inductive Err where
  | bucketExists
  | bucketMissing
  | keyValueMissing
  | incompatibleValue
  | readOnlyTx
deriving DecidableEq, Repr

inductive RRes (α : Type) where
  | ok (val : α)
  | err (e : Err)
  | panicked
deriving DecidableEq, Repr

structure BState where
  tree : PTree
  nextInt : Nat
  cache : List ByteStr

/-- `InnerBucket::get`: search; on an exact hit return `val(last.index)`,
else `None`. -/
def innerGet (st : BState) (k : ByteStr) : Option Entry :=
  match searchT st.tree k with
  | .leafF items i true => items.get? i
  | _ => none

/-- `InnerBucket::put_leaf`: search for the leaf's key; on an exact hit
check kv/bucket compatibility and remember the previous element; on a
miss bump `next_int`.  Then materialize the node at the final frame and
`insert_data` the new element.  If the search dead-ends on an empty
branch, `exists` is false, so `next_int` is bumped and then
`insert_data` on a branch node panics. -/
def putLeaf (st : BState) (e : Entry) : RRes (Option Entry) × BState :=
  match searchT st.tree e.key with
  | .deadEnd => (.panicked, { st with nextInt := st.nextInt + 1 })
  | .leafF items i ex =>
    if ex then
      match items.get? i with
      | none => (.panicked, st)
      | some cur =>
        if cur.isKv != e.isKv then (.err .incompatibleValue, st)
        else (.ok (some cur),
          { st with tree := updateAt st.tree e.key (insertData e) })
    else
      (.ok none,
        { st with tree := updateAt st.tree e.key (insertData e),
                  nextInt := st.nextInt + 1 })

/-- `InnerBucket::put`: `put_leaf(Leaf::Kv(k, v))`, unwrapping the
returned previous element into a key/value pair. -/
def innerPut (st : BState) (k v : ByteStr) :
    RRes (Option (ByteStr × ByteStr)) × BState :=
  match putLeaf st (.kv k v) with
  | (.ok (some (.kv k0 v0)), st') => (.ok (some (k0, v0)), st')
  | (.ok (some (.bucketE _ _)), st') => (.panicked, st')
  | (.ok none, st') => (.ok none, st')
  | (.err e, st') => (.err e, st')
  | (.panicked, st') => (.panicked, st')

/-- `InnerBucket::delete`: search; on an exact hit at key/value data,
delete it from the node at the final frame; a bucket leaf is
`IncompatibleValue`, a miss is `KeyValueMissing`. -/
def innerDelete (st : BState) (k : ByteStr) :
    RRes (ByteStr × ByteStr) × BState :=
  match searchT st.tree k with
  | .leafF items i true =>
    (match items.get? i with
     | none => (.panicked, st)
     | some data =>
       if data.isKv then
         match data with
         | .kv k0 v0 => (.ok (k0, v0),
             { st with tree := updateAt st.tree k (fun l => l.eraseIdx i) })
         | .bucketE _ _ => (.panicked, st)
       else (.err .incompatibleValue, st))
  | _ => (.err .keyValueMissing, st)

/-- `InnerBucket::bucket_getter(name, should_create, must_create)`.
If the name is not yet in the `buckets` map, search the tree: an exact
hit at a bucket leaf opens it (error if `must_create`), a hit at
key/value data is `IncompatibleValue`, and a miss either creates the
bucket (`next_int += 1`, `new_child` registers it in the map, and a
`Leaf::Bucket(name, BucketMeta::default())` element is inserted) or
reports `BucketMissing`. -/
def bucketGetter (st : BState) (name : ByteStr)
    (shouldCreate mustCreate : Bool) : RRes Unit × BState :=
  if name ∈ st.cache then
    if mustCreate then (.err .bucketExists, st) else (.ok (), st)
  else
    match searchT st.tree name with
    | .leafF items i ex =>
      if ex then
        match items.get? i with
        | some (.bucketE bname _) =>
          if mustCreate then (.err .bucketExists, st)
          else (.ok (), { st with cache := bname :: st.cache })
        | some (.kv _ _) => (.err .incompatibleValue, st)
        | none => (.err .bucketMissing, st)
      else
        if shouldCreate then
          (.ok (), { st with
            nextInt := st.nextInt + 1,
            cache := name :: st.cache,
            tree := updateAt st.tree name
              (insertData (.bucketE name defaultBucketMeta)) })
        else (.err .bucketMissing, st)
    | .deadEnd =>
      if shouldCreate then
        (.panicked, { st with nextInt := st.nextInt + 1,
                              cache := name :: st.cache })
      else (.err .bucketMissing, st)

/-- `InnerBucket::delete_bucket` as it affects the observable bucket
state: `get_bucket` first, then remove the name from the map and delete
the bucket's element from the tree (the page walk that returns the
sub-bucket's pages to the freelist is modelled separately below). -/
def innerDeleteBucket (st : BState) (name : ByteStr) : RRes Unit × BState :=
  match bucketGetter st name false false with
  | (.ok _, st1) =>
    let st2 := { st1 with cache := st1.cache.erase name }
    (match searchT st2.tree name with
     | .leafF items i true =>
       (match items.get? i with
        | none => (.panicked, st2)
        | some data =>
          if !data.isKv then
            (.ok (), { st2 with
              tree := updateAt st2.tree name (fun l => l.eraseIdx i) })
          else (.err .incompatibleValue, st2))
     | _ => (.panicked, st2))
  | r => r

/-- `Bucket::put`: a read-only transaction is rejected before any state
is touched. -/
def bucketPut (writable : Bool) (st : BState) (k v : ByteStr) :
    RRes (Option (ByteStr × ByteStr)) × BState :=
  if !writable then (.err .readOnlyTx, st) else innerPut st k v

/-- `Bucket::delete`. -/
def bucketDelete (writable : Bool) (st : BState) (k : ByteStr) :
    RRes (ByteStr × ByteStr) × BState :=
  if !writable then (.err .readOnlyTx, st) else innerDelete st k

/-- The bucket operations of `§6`, as state transformers (the resulting
state regardless of the returned value). -/
inductive BOp where
  | getOp (k : ByteStr)
  | putOp (k v : ByteStr)
  | delOp (k : ByteStr)
  | getBucketOp (name : ByteStr)
  | createBucketOp (name : ByteStr)
  | getOrCreateBucketOp (name : ByteStr)
  | deleteBucketOp (name : ByteStr)

def applyOp (st : BState) : BOp → BState
  | .getOp _ => st
  | .putOp k v => (innerPut st k v).2
  | .delOp k => (innerDelete st k).2
  | .getBucketOp n => (bucketGetter st n false false).2
  | .createBucketOp n => (bucketGetter st n true true).2
  | .getOrCreateBucketOp n => (bucketGetter st n true false).2
  | .deleteBucketOp n => (innerDeleteBucket st n).2

/-- `Cursor::seek` (`cursor.rs`): run `search`, store its stack, return
`exists`.  Only the top stack frame is observable through `current()`,
so the model keeps that frame. -/
def cursorSeek (t : PTree) (k : ByteStr) : Bool × SearchFrame :=
  match searchT t k with
  | .leafF items i ex => (ex, .leafF items i ex)
  | .deadEnd => (false, .deadEnd)

/-! Freelist (`freelist.rs`).  `free_pages` is a `BTreeSet<PageID>`
modelled as a strictly ascending list; `pending_pages` is a
`BTreeMap<u64, Vec<PageID>>` modelled as an association list with
strictly ascending keys. -/
/-- Ordered-set insertion (`BTreeSet::insert`). -/
def insertSorted (id : Nat) : List Nat → List Nat
  | [] => [id]
  | x :: rest =>
    if id < x then id :: x :: rest
    else if id = x then x :: rest
    else x :: insertSorted id rest

def insertAllSorted (ids : List Nat) (s : List Nat) : List Nat :=
  ids.foldl (fun acc i => insertSorted i acc) s

/-- `pending_pages.entry(tx_id).or_insert_with(Vec::new).push(page_id)`,
keeping the map keys ascending. -/
def pendInsert (txid id : Nat) : List (Nat × List Nat) → List (Nat × List Nat)
  | [] => [(txid, [id])]
  | (t, ps) :: rest =>
    if txid < t then (txid, [id]) :: (t, ps) :: rest
    else if txid = t then (t, ps ++ [id]) :: rest
    else (t, ps) :: pendInsert txid id rest

def pendLookup (pend : List (Nat × List Nat)) (txid : Nat) : List Nat :=
  match pend.find? (fun p => p.1 == txid) with
  | some p => p.2
  | none => []

structure Freelist where
  freePages : List Nat
  pending : List (Nat × List Nat)

/-- `Freelist::free(tx_id, page_id)`: append the id to the transaction's
pending list. -/
def Freelist.free (fl : Freelist) (txid id : Nat) : Freelist :=
  { fl with pending := pendInsert txid id fl.pending }

/-- The loop of `Freelist::release`: walk the ascending pending keys,
draining every entry with key `< tx_id` into `free_pages`, and stop
(`break`) at the first key `≥ tx_id`. -/
def releaseGo : List (Nat × List Nat) → Nat → List Nat →
    List (Nat × List Nat) × List Nat
  | [], _, free => ([], free)
  | (t, ps) :: rest, txid, free =>
    if t < txid then releaseGo rest txid (insertAllSorted ps free)
    else ((t, ps) :: rest, free)

def Freelist.release (fl : Freelist) (txid : Nat) : Freelist :=
  let r := releaseGo fl.pending txid fl.freePages
  { freePages := r.2, pending := r.1 }

/-- The scan loop of `Freelist::allocate`: walk the ascending free ids
keeping `start` (start of the current consecutive run) and `prev`;
return the found start, or 0 when the list is exhausted. -/
def allocLoop (n : Nat) : List Nat → Nat → Nat → Nat
  | [], _, _ => 0
  | id :: rest, start, prev =>
    let start' := if prev = 0 ∨ id - prev ≠ 1 then id else start
    if id - start' + 1 = n then start'
    else allocLoop n rest start' id

/-- `Freelist::allocate(num_pages)`: short-circuit on an empty set, scan
for the first run of `n` contiguous ids, and on success remove ids
`found..found+n` from the set. -/
def Freelist.allocate (fl : Freelist) (n : Nat) : Option Nat × Freelist :=
  if fl.freePages = [] then (none, fl)
  else
    let found := allocLoop n fl.freePages 0 0
    if 0 < found then
      let fp := fl.freePages.filter
        (fun id => !(decide (found ≤ id) && decide (id < found + n)))
      (some found, { fl with freePages := fp })
    else (none, fl)

/-- Membership in the page set described by a partially consumed scan
state: the consecutive run `start..prev` already swallowed by the loop,
plus the remaining ids `R`. -/
def inT (start prev : Nat) (R : List Nat) (m : Nat) : Prop :=
  (start ≤ m ∧ m ≤ prev) ∨ m ∈ R

/-- Freelist operations, for statements about operation sequences. -/
inductive FOp where
  | freeOp (txid id : Nat)
  | releaseOp (txid : Nat)
  | allocOp (n : Nat)

def applyFOp (fl : Freelist) : FOp → Freelist
  | .freeOp t i => fl.free t i
  | .releaseOp u => fl.release u
  | .allocOp n => (fl.allocate n).2

/-- Structural invariants of a freelist, as maintained by the engine:
ascending free set and pending keys, and no page id at or below the two
meta pages (`free` debug-asserts `page_id > 1`). -/
def FreelistWf (fl : Freelist) : Prop :=
  List.Pairwise (· < ·) fl.freePages ∧
  List.Pairwise (fun a b => a.1 < b.1) fl.pending ∧
  (∀ m ∈ fl.freePages, 2 ≤ m) ∧
  (∀ p ∈ fl.pending, ∀ m ∈ p.2, 2 ≤ m)

/-- Page `id0` was freed under transaction `T` and is still held: it sits
in `pending[T]`, is not yet allocatable, and appears in no other pending
queue. -/
def PendingHeld (T id0 : Nat) (fl : Freelist) : Prop :=
  id0 ∈ pendLookup fl.pending T ∧ id0 ∉ fl.freePages ∧
  ∀ t, t ≠ T → id0 ∉ pendLookup fl.pending t

/-- The operations that may occur between `free(T, id0)` and the first
`release(u)` with `u > T`: further frees of other (legal) pages,
releases up to `T`, and allocations. -/
def OkOp (T id0 : Nat) : FOp → Prop
  | .freeOp _ i => 2 ≤ i ∧ i ≠ id0
  | .releaseOp u => u ≤ T
  | .allocOp _ => True

/-! Meta pages (`meta.rs`, `db.rs`). -/
/-- `Meta` (`meta.rs`): all integer fields; `meta_page`, `magic` and
`version` are `u32`, the rest `u64`. -/
structure MetaRec where
  metaPage : Nat
  magic : Nat
  version : Nat
  pagesize : Nat
  root : BucketMeta
  numPages : Nat
  freelistPage : Nat
  txId : Nat
  hash : Nat
deriving DecidableEq, Repr

/-- `MAGIC_VALUE` and `VERSION` (`db.rs`), written by `init_file` when a
new database file is created. -/
def MAGIC_VALUE : Nat := 0x00ABCDEF

def VERSION : Nat := 1

/-- Big-endian byte encoding of the low `w` bytes of `v`
(`u32::to_be_bytes` / `u64::to_be_bytes`). -/
def toBE (w : Nat) (v : Nat) : List Nat :=
  (List.range w).map (fun i => v / 2 ^ (8 * (w - 1 - i)) % 256)

/-- The `fnv` crate's `FnvHasher`: 64-bit FNV-1a with offset basis
`0xcbf29ce484222325` and prime `0x100000001b3`, wrapping at `2^64`. -/
def fnv1a (bytes : List Nat) : Nat :=
  bytes.foldl (fun h b => ((h ^^^ b) * 0x100000001b3) % 2 ^ 64)
    0xcbf29ce484222325

/-- `Meta::hash_self`: FNV-1a over the big-endian bytes of every field
before `hash`, in declaration order. -/
def MetaRec.hashSelf (m : MetaRec) : Nat :=
  fnv1a (toBE 4 m.metaPage ++ toBE 4 m.magic ++ toBE 4 m.version ++
    toBE 8 m.pagesize ++ toBE 8 m.root.rootPage ++ toBE 8 m.root.nextInt ++
    toBE 8 m.numPages ++ toBE 8 m.freelistPage ++ toBE 8 m.txId)

/-- `Meta::valid`: the stored hash matches the recomputed self-hash. -/
def MetaRec.valid (m : MetaRec) : Bool := m.hash == m.hashSelf

/-- The `Result<Meta>` a caller of `DBInner::meta` can receive: `Ok` with
the chosen meta, or an error — the spec claims `Err(InvalidDB(reason))`
is among the possible returns. -/
inductive MetaResult where
  | okM (m : MetaRec)
  | errInvalidDB (reason : String)
deriving DecidableEq

/-- Everything `DBInner::meta` can do, as seen by its caller: return a
`Result`, or panic. -/
inductive OpenOutcome where
  | returned (r : MetaResult)
  | panicked (msg : String)
deriving DecidableEq

/-- `DBInner::meta` (`db.rs`): read both meta slots; a slot is usable iff
its hash validates (magic and version are never examined); a valid slot
whose recorded pagesize differs from the configured one fails an
`assert_eq!` (panic); with both slots valid the higher `tx_id` wins; with
neither valid the function panics with `NO VALID META PAGES`. -/
def dbMeta (pagesize : Nat) (m1 m2 : MetaRec) : OpenOutcome :=
  if m1.valid ∧ m1.pagesize ≠ pagesize then
    .panicked "Invalid pagesize from meta1"
  else
    match m1.valid, m2.valid with
    | true, true =>
      if m1.pagesize ≠ pagesize then .panicked "Invalid pagesize from meta1"
      else if m2.pagesize ≠ pagesize then .panicked "Invalid pagesize from meta2"
      else if m1.txId > m2.txId then .returned (.okM m1)
      else .returned (.okM m2)
    | true, false =>
      if m1.pagesize ≠ pagesize then .panicked "Invalid pagesize from meta1"
      else .returned (.okM m1)
    | false, true =>
      if m2.pagesize ≠ pagesize then .panicked "Invalid pagesize from meta2"
      else .returned (.okM m2)
    | false, false => .panicked "NO VALID META PAGES"

/-! The page walk of `InnerBucket::delete_bucket` (`bucket.rs`).

The committed pages reachable from a sub-bucket's root form a tree
(spec `§8`: after commit every page is visited exactly once), modelled
by `PageTree`: a branch page with its child pages, or a leaf page with
the root pages of its nested buckets (key/value elements reference no
pages and are dropped).  `ov` is the page's `overflow` count, so a node
occupies pages `id .. id+ov`. -/
inductive PageTree where
  | branchP (id ov : Nat) (children : List PageTree)
  | leafP (id ov : Nat) (subBuckets : List PageTree)

mutual

def ptSize : PageTree → Nat
  | .branchP _ _ cs => 1 + ptSizeList cs
  | .leafP _ _ subs => 1 + ptSizeList subs

def ptSizeList : List PageTree → Nat
  | [] => 0
  | t :: ts => ptSize t + ptSizeList ts

end

/-- The stack loop of `delete_bucket`: pop a page, push every branch
child / nested-bucket root (`Vec::push`, so children end up popped in
reverse order), and free `(page_id, overflow + 1)`. -/
def walkFree : List PageTree → List (Nat × Nat)
  | [] => []
  | .branchP id ov cs :: stack =>
    (id, ov + 1) :: walkFree (cs.reverse ++ stack)
  | .leafP id ov subs :: stack =>
    (id, ov + 1) :: walkFree (subs.reverse ++ stack)
termination_by stack => ptSizeList stack
decreasing_by
  all_goals {
    have happ : ∀ (a b : List PageTree),
        ptSizeList (a ++ b) = ptSizeList a + ptSizeList b := by
      intro a
      induction a with
      | nil => intro b; simp [ptSizeList]
      | cons x xs ih =>
        intro b
        rw [List.cons_append]
        simp only [ptSizeList]
        rw [ih b]
        omega
    have hrev : ∀ (a : List PageTree), ptSizeList a.reverse = ptSizeList a := by
      intro a
      induction a with
      | nil => rfl
      | cons x xs ih =>
        rw [List.reverse_cons, happ]
        simp only [ptSizeList]
        omega
    simp only [happ, hrev, ptSizeList, ptSize]
    omega
  }

mutual

/-- The pages reachable from a sub-bucket's root: the root itself with
its overflow pages, every page of every branch child, and recursively
every page of every nested bucket. -/
def reachable : PageTree → List (Nat × Nat)
  | .branchP id ov cs => (id, ov + 1) :: reachableList cs
  | .leafP id ov subs => (id, ov + 1) :: reachableList subs

def reachableList : List PageTree → List (Nat × Nat)
  | [] => []
  | t :: ts => reachable t ++ reachableList ts

end

/-- `delete_bucket`'s freeing phase: nothing when the sub-bucket was
created in this transaction and never committed (`root_page == 0`),
otherwise the stack walk from the root page. -/
def deleteBucketFreedPages : Option PageTree → List (Nat × Nat)
  | none => []
  | some t => walkFree [t]

/-- `TxFreelist::free(page_id, num_pages)` frees the consecutive ids
`page_id .. page_id + num_pages`; expanding every freed `(id, n)` pair
gives the individual page ids. -/
def expandPages (l : List (Nat × Nat)) : List Nat :=
  (l.map (fun p => List.range' p.1 p.2)).join

/-! `Node::split` (`node.rs`). -/
/-- `size_of::<Page>()`: `{u64, u8 (+7 pad), u64, u64, u64}` = 40. -/
def HEADER_SIZE : Nat := 40

/-- `size_of::<LeafElement>()`: `{u8 (+7 pad), u64, u64, u64}` = 32. -/
def LEAF_SIZE : Nat := 32

/-- `size_of::<BranchElement>()`: `{u64, u64, u64}` = 24. -/
def BRANCH_SIZE : Nat := 24

def MIN_KEYS_PER_NODE : Nat := 2

/-- `Leaf::size`: key + value bytes for kv data, name + `META_SIZE` (16)
for a bucket element. -/
def Entry.size : Entry → Nat
  | .kv k v => k.length + v.length
  | .bucketE n _ => n.length + 16

/-- `NodeData`: a node holds either branches (key + child page id) or
leaves. -/
inductive NodeData where
  | branches (bs : List (ByteStr × Nat))
  | leaves (ls : List Entry)
deriving DecidableEq

def NodeData.len : NodeData → Nat
  | .branches bs => bs.length
  | .leaves ls => ls.length

/-- `NodeData::size`: element headers plus key (and value) bytes. -/
def NodeData.size : NodeData → Nat
  | .branches bs => bs.foldl (fun acc b => acc + b.1.length)
      (BRANCH_SIZE * bs.length)
  | .leaves ls => ls.foldl (fun acc l => acc + l.size)
      (LEAF_SIZE * ls.length)

/-- `Node::size`: header plus data. -/
def nodeSize (d : NodeData) : Nat := HEADER_SIZE + d.size

/-- Per-element serialized size (header struct + inlined bytes), the
quantity the split loop accumulates. -/
def elemSizes : NodeData → List Nat
  | .branches bs => bs.map (fun b => BRANCH_SIZE + b.1.length)
  | .leaves ls => ls.map (fun l => LEAF_SIZE + l.size)

/-- The index-computing loop of `Node::split`: walk the supplied element
sizes (the caller passes only the slice `[..len-2]`), with `count`
incremented first, cutting at `i + 1` when `count ≥ MIN_KEYS_PER_NODE`
and the accumulated size exceeds the threshold, then restarting the
accumulator at `HEADER_SIZE + size`.  (The branch arm's extra
`if i > len - 3 break` can never fire inside `[..len-2]`.) -/
def splitWalk (threshold : Nat) :
    List Nat → Nat → Nat → Nat → List Nat
  | [], _, _, _ => []
  | s :: rest, i, currentSize, count =>
    if MIN_KEYS_PER_NODE ≤ count + 1 ∧ threshold < currentSize + s then
      (i + 1) :: splitWalk threshold rest (i + 1) (HEADER_SIZE + s) 0
    else splitWalk threshold rest (i + 1) (currentSize + s) (count + 1)

def splitIndexes (threshold : Nat) (sizes : List Nat) : List Nat :=
  splitWalk threshold (sizes.take (sizes.length - 2)) 0 HEADER_SIZE 0

/-- `Vec::split_off` applied right-to-left over the reversed index list,
as `Node::split` does (`.rev().map(|i| self.data.split_at(i))`): each
step keeps `cur[..i]` and breaks off `cur[i..]`. -/
def splitByRev {α : Type} (cur : List α) : List Nat → List α × List (List α)
  | [] => (cur, [])
  | i :: rest =>
    let piece := cur.drop i
    let r := splitByRev (cur.take i) rest
    (r.1, piece :: r.2)

/-- Assemble the final node data: the collected pieces are reversed back
into left-to-right order (`.rev()` before `new_node`). -/
def splitApply (data : NodeData) (idxs : List Nat) : NodeData × List NodeData :=
  match data with
  | .branches bs =>
    let r := splitByRev bs idxs.reverse
    (.branches r.1, r.2.reverse.map .branches)
  | .leaves ls =>
    let r := splitByRev ls idxs.reverse
    (.leaves r.1, r.2.reverse.map .leaves)

/-- `Node::split`: keep the node whole when `len ≤ 2·MIN_KEYS_PER_NODE`
or the serialized size is below one page; otherwise compute cut indices
with threshold `(pagesize as f32 * FILL_PERCENT) as u64` — equal to
`pagesize / 2` whenever `pagesize ≤ 2^24`, where the `f32` conversion is
exact — and split, returning the new right-hand siblings
(`None` when no cut index was found). -/
def nodeSplit (pagesize : Nat) (data : NodeData) : Option (NodeData × List NodeData) :=
  if data.len ≤ MIN_KEYS_PER_NODE * 2 ∨ nodeSize data < pagesize then none
  else
    let idxs := splitIndexes (pagesize / 2) (elemSizes data)
    if idxs = [] then none
    else some (splitApply data idxs)

/-- Modelled from the spec, literally as claim C8 words it: split only
when the entry count exceeds `2·MIN_KEYS_PER_NODE` and the serialized
size strictly exceeds one page, and compute the cut indices by walking
all entries (not stopping before the last two). -/
def splitSpecLiteral (pagesize : Nat) (data : NodeData) :
    Option (NodeData × List NodeData) :=
  if data.len ≤ MIN_KEYS_PER_NODE * 2 ∨ ¬ (pagesize < nodeSize data) then none
  else
    let idxs := splitWalk (pagesize / 2) (elemSizes data) 0 HEADER_SIZE 0
    if idxs = [] then none
    else some (splitApply data idxs)

/-- Left-to-right slices of `l` between consecutive cut indices, the last
piece running to the end of the list. -/
def sliceChunks {α : Type} (l : List α) : List Nat → List (List α)
  | [] => []
  | [i] => [l.drop i]
  | i :: j :: rest => (l.drop i).take (j - i) :: sliceChunks l (j :: rest)

/-- Modelled from the spec as amended: the node splits iff its entry
count exceeds `2·MIN_KEYS_PER_NODE`, its serialized size is at least one
page, and walking all but the final two entries finds at least one cut;
the original node keeps the slice left of the first cut and the
remainder becomes siblings cut at the computed indices, in left-to-right
order. -/
def splitSpecAmended (pagesize : Nat) (data : NodeData) :
    Option (NodeData × List NodeData) :=
  if data.len ≤ MIN_KEYS_PER_NODE * 2 ∨ nodeSize data < pagesize then none
  else
    match splitIndexes (pagesize / 2) (elemSizes data) with
    | [] => none
    | i1 :: restIdx =>
      match data with
      | .branches bs =>
        some (.branches (bs.take i1),
          (sliceChunks bs (i1 :: restIdx)).map .branches)
      | .leaves ls =>
        some (.leaves (ls.take i1),
          (sliceChunks ls (i1 :: restIdx)).map .leaves)

/-- A meta record whose stored hash (0) does not match its self-hash:
both slots reading this record means no valid meta page. -/
def invalidMeta : MetaRec :=
  { metaPage := 0, magic := MAGIC_VALUE, version := VERSION,
    pagesize := 1024, root := { rootPage := 0, nextInt := 0 },
    numPages := 2, freelistPage := 0, txId := 0, hash := 0 }

/-- A meta record with magic 0 and version 0 — both wrong — but whose
stored hash is its correct self-hash, so `Meta::valid` accepts it. -/
def strangeMeta : MetaRec :=
  { metaPage := 0, magic := 0, version := 0,
    pagesize := 1024, root := { rootPage := 0, nextInt := 0 },
    numPages := 2, freelistPage := 0, txId := 0,
    hash := MetaRec.hashSelf
      { metaPage := 0, magic := 0, version := 0,
        pagesize := 1024, root := { rootPage := 0, nextInt := 0 },
        numPages := 2, freelistPage := 0, txId := 0, hash := 0 } }

/-- A leaf entry of serialized size 164 (`LEAF_SIZE` 32 + 66 + 66): six
of them make a node whose size is exactly one page of 1024 bytes. -/
def ex1entry : Entry := .kv (List.replicate 66 0) (List.replicate 66 0)

def ex1data : NodeData := .leaves (List.replicate 6 ex1entry)

/-- A leaf entry of serialized size 332 (`LEAF_SIZE` 32 + 150 + 150):
five of them oversize a 1024-byte page, and the walk over all entries
finds a second cut that the code's walk (stopping two entries early)
does not. -/
def ex2entry : Entry := .kv (List.replicate 150 0) (List.replicate 150 0)

def ex2data : NodeData := .leaves (List.replicate 5 ex2entry)

theorem cmpBytes_eq_iff : ∀ {a b : ByteStr}, cmpBytes a b = .eq ↔ a = b := by
  intro a
  induction a with
  | nil => intro b; cases b <;> simp [cmpBytes]
  | cons x xs ih =>
    intro b
    cases b with
    | nil => simp [cmpBytes]
    | cons y ys =>
      simp only [cmpBytes]
      rcases h : compare x y with _ | _ | _
      · have hxy : x < y := by
          have := Nat.compare_eq_lt.mp h
          exact this
        simp only
        constructor
        · intro hc; exact absurd hc (by simp)
        · intro hc
          injection hc with h1 h2
          omega
      · have hxy : x = y := Nat.compare_eq_eq.mp h
        subst hxy
        simp [ih]
      · have hxy : y < x := Nat.compare_eq_gt.mp h
        constructor
        · intro hc; exact absurd hc (by simp)
        · intro hc
          injection hc with h1 h2
          omega

theorem cmpBytes_refl (a : ByteStr) : cmpBytes a a = .eq :=
  cmpBytes_eq_iff.mpr rfl

theorem cmpBytes_swap : ∀ {a b : ByteStr}, cmpBytes a b = .lt ↔ cmpBytes b a = .gt := by
  intro a
  induction a with
  | nil => intro b; cases b <;> simp [cmpBytes]
  | cons x xs ih =>
    intro b
    cases b with
    | nil => simp [cmpBytes]
    | cons y ys =>
      simp only [cmpBytes]
      rcases h : compare x y with _ | _ | _
      · have hxy : x < y := Nat.compare_eq_lt.mp h
        have h' : compare y x = .gt := Nat.compare_eq_gt.mpr hxy
        simp [h']
      · have hxy : x = y := Nat.compare_eq_eq.mp h
        subst hxy
        have h' : compare x x = .eq := Nat.compare_eq_eq.mpr rfl
        simp [h', ih]
      · have hxy : y < x := Nat.compare_eq_gt.mp h
        have h' : compare y x = .lt := Nat.compare_eq_lt.mpr hxy
        simp [h']

theorem ltB_irrefl (a : ByteStr) : ¬ ltB a a := by
  intro h
  have := cmpBytes_refl a
  rw [ltB] at h
  rw [this] at h
  exact absurd h (by simp)

theorem ltB_trans : ∀ {a b c : ByteStr}, ltB a b → ltB b c → ltB a c := by
  intro a
  induction a with
  | nil =>
    intro b c hab hbc
    cases b with
    | nil => exact absurd hab (ltB_irrefl [])
    | cons y ys =>
      cases c with
      | nil => exact absurd hbc (by simp [ltB, cmpBytes])
      | cons z zs => simp [ltB, cmpBytes]
  | cons x xs ih =>
    intro b c hab hbc
    cases b with
    | nil => exact absurd hab (by simp [ltB, cmpBytes])
    | cons y ys =>
      cases c with
      | nil => exact absurd hbc (by simp [ltB, cmpBytes])
      | cons z zs =>
        simp only [ltB, cmpBytes] at hab hbc ⊢
        split at hab
        · -- compare x y = .eq
          rename_i hxy
          have h1 : x = y := Nat.compare_eq_eq.mp hxy
          subst h1
          split at hbc
          · rename_i hyz
            have h2 : x = z := Nat.compare_eq_eq.mp hyz
            subst h2
            exact ih hab hbc
          · rename_i hyz
            simp [hyz]
          · exact absurd hbc (by simp)
        · -- compare x y = .lt
          rename_i hxy
          have h1 : x < y := Nat.compare_eq_lt.mp hxy
          split at hbc
          · rename_i hyz
            have h2 : y = z := Nat.compare_eq_eq.mp hyz
            subst h2
            simp [hxy]
          · rename_i hyz
            have h2 : y < z := Nat.compare_eq_lt.mp hyz
            have : compare x z = .lt := Nat.compare_eq_lt.mpr (Nat.lt_trans h1 h2)
            simp [this]
          · exact absurd hbc (by simp)
        · exact absurd hab (by simp)

theorem ltB_ne {a b : ByteStr} (h : ltB a b) : a ≠ b := by
  intro he
  subst he
  exact ltB_irrefl a h

theorem ltB_asymm {a b : ByteStr} (h : ltB a b) : ¬ ltB b a := by
  intro h'
  exact ltB_irrefl a (ltB_trans h h')

/-- Trichotomy facts, phrased through `cmpBytes`. -/
theorem cmpBytes_cases (a b : ByteStr) :
    (cmpBytes a b = .lt ∧ ltB a b) ∨ (cmpBytes a b = .eq ∧ a = b) ∨
      (cmpBytes a b = .gt ∧ ltB b a) := by
  rcases h : cmpBytes a b with _ | _ | _
  · exact Or.inl ⟨rfl, h⟩
  · exact Or.inr (Or.inl ⟨rfl, cmpBytes_eq_iff.mp h⟩)
  · exact Or.inr (Or.inr ⟨rfl, cmpBytes_swap.mpr h⟩)

theorem cmpBytes_gt_iff {a b : ByteStr} : cmpBytes a b = .gt ↔ ltB b a :=
  ⟨fun h => cmpBytes_swap.mpr h, fun h => cmpBytes_swap.mp h⟩

/-- Main characterization of the binary-search loop, independent of the
element type: if everything left of `left` compares `.lt` and everything
from `right` on compares `.gt`, the result is either an exact hit or the
boundary between `.lt` and `.gt` elements. -/
theorem bsGo_char {len : Nat} (f : Nat → Ordering) :
    ∀ (fuel left right : Nat), right - left ≤ fuel → left ≤ right → right ≤ len →
    (∀ j, j < left → f j = .lt) → (∀ j, right ≤ j → j < len → f j = .gt) →
    (∀ i j, i ≤ j → j < len → f j = .lt → f i = .lt) →
    (∀ i j, i ≤ j → j < len → f i = .gt → f j = .gt) →
    (match bsGo f fuel left right with
     | .inl i => i < len ∧ f i = .eq
     | .inr i => i ≤ len ∧ (∀ j, j < i → f j = .lt) ∧
         (∀ j, i ≤ j → j < len → f j = .gt)) := by
  intro fuel
  induction fuel with
  | zero =>
    intro left right hfuel hlr hrlen hlo hhi _ _
    have : right = left := by omega
    subst this
    simp only [bsGo]
    exact ⟨by omega, hlo, hhi⟩
  | succ n ih =>
    intro left right hfuel hlr hrlen hlo hhi hmonolt hmonogt
    simp only [bsGo]
    by_cases h : left < right
    · simp only [if_pos h]
      have hmidlt : left + (right - left) / 2 < right := by omega
      have hmidge : left ≤ left + (right - left) / 2 := by omega
      rcases hf : f (left + (right - left) / 2) with _ | _ | _
    -- the goal orderings: lt, eq, gt — the match arms
      · -- f mid = .lt : left := mid + 1
        have := ih (left + (right - left) / 2 + 1) right (by omega) (by omega) hrlen
          (fun j hj => by
            by_cases hjl : j < left
            · exact hlo j hjl
            · exact hmonolt j (left + (right - left) / 2) (by omega) (by omega) hf)
          hhi hmonolt hmonogt
        exact this
      · exact ⟨by omega, hf⟩
      · -- f mid = .gt : right := mid
        have := ih left (left + (right - left) / 2) (by omega) (by omega) (by omega)
          hlo
          (fun j hj hjlen => by
            by_cases hjr : right ≤ j
            · exact hhi j hjr hjlen
            · exact hmonogt (left + (right - left) / 2) j hj hjlen hf)
          hmonolt hmonogt
        exact this
    · simp only [if_neg h]
      have : right = left := by omega
      subst this
      exact ⟨by omega, hlo, hhi⟩

/-- Bounds of the loop result, with no assumption on `f`. -/
theorem bsGo_bounds (f : Nat → Ordering) :
    ∀ (fuel left right : Nat), left ≤ right →
    (match bsGo f fuel left right with
     | .inl i => left ≤ i ∧ i < right
     | .inr i => left ≤ i ∧ i ≤ right) := by
  intro fuel
  induction fuel with
  | zero => intro left right h; simp only [bsGo]; omega
  | succ n ih =>
    intro left right hlr
    simp only [bsGo]
    by_cases h : left < right
    · simp only [if_pos h]
      rcases hf : f (left + (right - left) / 2) with _ | _ | _
      · have := ih (left + (right - left) / 2 + 1) right (by omega)
        rcases hr : bsGo f n (left + (right - left) / 2 + 1) right with i | i <;>
          rw [hr] at this <;> simp only <;> omega
      · exact ⟨by omega, by omega⟩
      · have := ih left (left + (right - left) / 2) (by omega)
        rcases hr : bsGo f n left (left + (right - left) / 2) with i | i <;>
          rw [hr] at this <;> simp only <;> omega
    · simp only [if_neg h]
      omega

theorem keyAt_eq_get {items : List Entry} {i : Nat} (hi : i < items.length) :
    keyAt items i = (items.get ⟨i, hi⟩).key := by
  unfold keyAt
  rw [List.get?_eq_get hi]
  rfl

theorem sorted_keyAt_lt {items : List Entry} (hs : SortedEntries items)
    {i j : Nat} (hij : i < j) (hj : j < items.length) :
    ltB (keyAt items i) (keyAt items j) := by
  have hi : i < items.length := Nat.lt_trans hij hj
  rw [keyAt_eq_get hi, keyAt_eq_get hj]
  exact (List.pairwise_iff_get.mp hs) ⟨i, hi⟩ ⟨j, hj⟩ hij

/-- Characterization of `entrySearch` on sorted entries. -/
theorem entrySearch_char {items : List Entry} (hs : SortedEntries items)
    (k : ByteStr) :
    (match entrySearch items k with
     | .inl i => i < items.length ∧ keyAt items i = k
     | .inr i => i ≤ items.length ∧ (∀ j, j < i → ltB (keyAt items j) k) ∧
         (∀ j, i ≤ j → j < items.length → ltB k (keyAt items j))) := by
  have hmonolt : ∀ i j, i ≤ j → j < items.length →
      cmpBytes (keyAt items j) k = .lt → cmpBytes (keyAt items i) k = .lt := by
    intro i j hij hj hf
    rcases Nat.eq_or_lt_of_le hij with h | h
    · subst h; exact hf
    · exact ltB_trans (sorted_keyAt_lt hs h hj) hf
  have hmonogt : ∀ i j, i ≤ j → j < items.length →
      cmpBytes (keyAt items i) k = .gt → cmpBytes (keyAt items j) k = .gt := by
    intro i j hij hj hf
    rcases Nat.eq_or_lt_of_le hij with h | h
    · subst h; exact hf
    · exact cmpBytes_gt_iff.mpr (ltB_trans (cmpBytes_gt_iff.mp hf) (sorted_keyAt_lt hs h hj))
  have := @bsGo_char items.length (fun i => cmpBytes (keyAt items i) k)
    items.length 0 items.length (by omega) (by omega) (le_refl _)
    (fun j hj => absurd hj (Nat.not_lt_zero j))
    (fun j hj hjlen => absurd hjlen (by omega))
    hmonolt hmonogt
  unfold entrySearch binarySearch
  rcases hr : bsGo (fun i => cmpBytes (keyAt items i) k) items.length 0 items.length
    with i | i <;> rw [hr] at this
  · exact ⟨this.1, cmpBytes_eq_iff.mp this.2⟩
  · exact ⟨this.1, fun j hj => this.2.1 j hj,
      fun j hj hjlen => cmpBytes_gt_iff.mp (this.2.2 j hj hjlen)⟩

theorem entrySearch_found {items : List Entry} (hs : SortedEntries items)
    {k : ByteStr} {i : Nat} (h : entrySearch items k = .inl i) :
    i < items.length ∧ keyAt items i = k := by
  have := entrySearch_char hs k
  rw [h] at this
  exact this

theorem entrySearch_missed {items : List Entry} (hs : SortedEntries items)
    {k : ByteStr} {i : Nat} (h : entrySearch items k = .inr i) :
    i ≤ items.length ∧ (∀ j, j < i → ltB (keyAt items j) k) ∧
      (∀ j, i ≤ j → j < items.length → ltB k (keyAt items j)) := by
  have := entrySearch_char hs k
  rw [h] at this
  exact this

theorem entrySearch_missed_not_mem {items : List Entry} (hs : SortedEntries items)
    {k : ByteStr} {i : Nat} (h : entrySearch items k = .inr i) :
    k ∉ items.map Entry.key := by
  intro hmem
  rcases List.mem_map.mp hmem with ⟨e, hemem, hek⟩
  rcases List.mem_iff_get.mp hemem with ⟨⟨j, hj⟩, hget⟩
  have hkj : keyAt items j = k := by rw [keyAt_eq_get hj, hget, hek]
  rcases entrySearch_missed hs h with ⟨_, hlt, hgt⟩
  by_cases hji : j < i
  · exact ltB_irrefl k (hkj ▸ hlt j hji)
  · exact ltB_irrefl k (hkj ▸ hgt j (by omega) hj)

theorem mem_insertLin {e b : Entry} : ∀ {items : List Entry},
    b ∈ insertLin e items → b = e ∨ b ∈ items := by
  intro items
  induction items with
  | nil => intro h; simp [insertLin] at h; exact Or.inl h
  | cons x rest ih =>
    intro h
    simp only [insertLin] at h
    rcases hc : cmpBytes x.key e.key with _ | _ | _ <;> rw [hc] at h
    · rcases List.mem_cons.mp h with h | h
      · exact Or.inr (List.mem_cons.mpr (Or.inl h))
      · rcases ih h with h | h
        · exact Or.inl h
        · exact Or.inr (List.mem_cons.mpr (Or.inr h))
    · rcases List.mem_cons.mp h with h | h
      · exact Or.inl h
      · exact Or.inr (List.mem_cons.mpr (Or.inr h))
    · rcases List.mem_cons.mp h with h | h
      · exact Or.inl h
      · exact Or.inr h

theorem sorted_insertLin {items : List Entry} (hs : SortedEntries items)
    (e : Entry) : SortedEntries (insertLin e items) := by
  induction items with
  | nil => simp [insertLin, SortedEntries]
  | cons x rest ih =>
    rcases List.pairwise_cons.mp hs with ⟨hhead, htail⟩
    simp only [insertLin]
    rcases hc : cmpBytes x.key e.key with _ | _ | _
    · -- x.key < e.key
      refine List.pairwise_cons.mpr ⟨?_, ih htail⟩
      intro b hb
      rcases mem_insertLin hb with h | h
      · subst h; exact hc
      · exact hhead b h
    · -- x.key = e.key
      have hxe : x.key = e.key := cmpBytes_eq_iff.mp hc
      refine List.pairwise_cons.mpr ⟨?_, htail⟩
      intro b hb
      rw [← hxe]
      exact hhead b hb
    · -- e.key < x.key
      have hex : ltB e.key x.key := cmpBytes_gt_iff.mp hc
      refine List.pairwise_cons.mpr ⟨?_, List.pairwise_cons.mpr ⟨hhead, htail⟩⟩
      intro b hb
      rcases List.mem_cons.mp hb with h | h
      · subst h; exact hex
      · exact ltB_trans hex (hhead b h)

theorem lookupLin_insertLin (e : Entry) : ∀ (items : List Entry),
    lookupLin e.key (insertLin e items) = some e := by
  intro items
  induction items with
  | nil => simp [insertLin, lookupLin, cmpBytes_refl]
  | cons x rest ih =>
    simp only [insertLin]
    rcases hc : cmpBytes x.key e.key with _ | _ | _
    · simp only [lookupLin, hc]
      exact ih
    · simp [lookupLin, cmpBytes_refl]
    · simp [lookupLin, cmpBytes_refl]

theorem lookupLin_eq_none_of_not_mem {k : ByteStr} : ∀ {items : List Entry},
    k ∉ items.map Entry.key → lookupLin k items = none := by
  intro items
  induction items with
  | nil => intro _; rfl
  | cons x rest ih =>
    intro h
    simp only [List.map_cons, List.mem_cons, not_or] at h
    have hne : x.key ≠ k := Ne.symm h.1
    simp only [lookupLin]
    rcases hc : cmpBytes x.key k with _ | _ | _
    · exact ih h.2
    · exact absurd (cmpBytes_eq_iff.mp hc) hne
    · exact ih h.2

theorem lookupLin_none_of_all_gt {k : ByteStr} : ∀ {items : List Entry},
    (∀ e ∈ items, ltB k e.key) → lookupLin k items = none := by
  intro items
  induction items with
  | nil => intro _; rfl
  | cons x rest ih =>
    intro h
    have hx : ltB k x.key := h x (List.mem_cons_self x rest)
    simp only [lookupLin]
    rcases hc : cmpBytes x.key k with _ | _ | _
    · exact ih fun e he => h e (List.mem_cons.mpr (Or.inr he))
    · exact absurd (cmpBytes_eq_iff.mp hc ▸ hx) (ltB_irrefl _)
    · exact ih fun e he => h e (List.mem_cons.mpr (Or.inr he))

/-- On sorted entries, in-place replacement at the exact position found
by binary search coincides with the linear sorted insert. -/
theorem set_eq_insertLin (e : Entry) : ∀ (items : List Entry) (i : Nat),
    SortedEntries items → i < items.length → keyAt items i = e.key →
    items.set i e = insertLin e items := by
  intro items
  induction items with
  | nil => intro i _ hi; exact absurd hi (by simp)
  | cons x rest ih =>
    intro i hs hi hk
    rcases List.pairwise_cons.mp hs with ⟨hhead, htail⟩
    cases i with
    | zero =>
      have hx : x.key = e.key := by simpa [keyAt] using hk
      have hc : cmpBytes x.key e.key = .eq := cmpBytes_eq_iff.mpr hx
      simp [insertLin, hc]
    | succ j =>
      have hj : j < rest.length := by simpa using hi
      have hk' : keyAt rest j = e.key := by simpa [keyAt] using hk
      have hxe : cmpBytes x.key e.key = .lt := by
        rw [← hk', keyAt_eq_get hj]
        exact hhead _ (List.get_mem rest j hj)
      simp only [insertLin, hxe]
      rw [List.set_cons_succ, ih j htail hj hk']

/-- On sorted entries, `Vec::insert` at the miss position found by binary
search coincides with the linear sorted insert. -/
theorem insertAt_eq_insertLin (e : Entry) : ∀ (items : List Entry) (i : Nat),
    (∀ j, j < i → j < items.length → ltB (keyAt items j) e.key) →
    (∀ j, i ≤ j → j < items.length → ltB e.key (keyAt items j)) →
    items.take i ++ e :: items.drop i = insertLin e items := by
  intro items
  induction items with
  | nil => intro i _ _; simp [insertLin]
  | cons x rest ih =>
    intro i hlt hgt
    cases i with
    | zero =>
      have hgx : ltB e.key x.key := by
        have := hgt 0 (by omega) (by simp)
        simpa [keyAt] using this
      have hc : cmpBytes x.key e.key = .gt := cmpBytes_gt_iff.mpr hgx
      simp [insertLin, hc]
    | succ j =>
      have hlx : cmpBytes x.key e.key = .lt := by
        have := hlt 0 (by omega) (by simp)
        simpa [keyAt] using this
      simp only [insertLin, hlx, List.take_succ_cons, List.drop_succ_cons,
        List.cons_append]
      congr 1
      exact ih j
        (fun j' hj' hj'len => by
          have := hlt (j' + 1) (by omega) (by simpa using hj'len)
          simpa [keyAt] using this)
        (fun j' hj' hj'len => by
          have := hgt (j' + 1) (by omega) (by simpa using hj'len)
          simpa [keyAt] using this)

theorem insertData_eq_insertLin {items : List Entry} (hs : SortedEntries items)
    (e : Entry) : insertData e items = insertLin e items := by
  unfold insertData
  rcases h : entrySearch items e.key with i | i
  · rcases entrySearch_found hs h with ⟨hi, hk⟩
    exact set_eq_insertLin e items i hs hi hk
  · rcases entrySearch_missed hs h with ⟨hi, hlt, hgt⟩
    exact insertAt_eq_insertLin e items i (fun j hj _ => hlt j hj) hgt

theorem sorted_insertData {items : List Entry} (hs : SortedEntries items)
    (e : Entry) : SortedEntries (insertData e items) := by
  rw [insertData_eq_insertLin hs]
  exact sorted_insertLin hs e

/-- On sorted entries, the exact-hit read path (`index` + `val`) agrees
with a linear association lookup. -/
theorem lookupLin_at_exact (k : ByteStr) : ∀ (items : List Entry) (i : Nat),
    SortedEntries items → i < items.length → keyAt items i = k →
    lookupLin k items = items.get? i := by
  intro items
  induction items with
  | nil => intro i _ hi; exact absurd hi (by simp)
  | cons x rest ih =>
    intro i hs hi hk
    rcases List.pairwise_cons.mp hs with ⟨hhead, htail⟩
    cases i with
    | zero =>
      have hx : x.key = k := by simpa [keyAt] using hk
      have hc : cmpBytes x.key k = .eq := cmpBytes_eq_iff.mpr hx
      simp [lookupLin, hc]
    | succ j =>
      have hj : j < rest.length := by simpa using hi
      have hk' : keyAt rest j = k := by simpa [keyAt] using hk
      have hxe : cmpBytes x.key k = .lt := by
        rw [← hk', keyAt_eq_get hj]
        exact hhead _ (List.get_mem rest j hj)
      simp only [lookupLin, hxe, List.get?_cons_succ]
      exact ih j htail hj hk'

theorem getEntry_eq_lookupLin {items : List Entry} (hs : SortedEntries items)
    (k : ByteStr) : getEntry items k = lookupLin k items := by
  unfold getEntry indexOf
  rcases h : entrySearch items k with i | i
  · rcases entrySearch_found hs h with ⟨hi, hk⟩
    exact (lookupLin_at_exact k items i hs hi hk).symm
  · exact (lookupLin_eq_none_of_not_mem (entrySearch_missed_not_mem hs h)).symm

theorem getEntry_insertData {items : List Entry} (hs : SortedEntries items)
    (e : Entry) : getEntry (insertData e items) e.key = some e := by
  rw [insertData_eq_insertLin hs,
    getEntry_eq_lookupLin (sorted_insertLin hs e) e.key]
  exact lookupLin_insertLin e items

theorem sorted_eraseIdx {items : List Entry} (hs : SortedEntries items)
    (i : Nat) : SortedEntries (items.eraseIdx i) :=
  List.Pairwise.sublist (List.eraseIdx_sublist items i) hs

theorem lookupLin_eraseIdx_exact (k : ByteStr) : ∀ (items : List Entry) (i : Nat),
    SortedEntries items → i < items.length → keyAt items i = k →
    lookupLin k (items.eraseIdx i) = none := by
  intro items
  induction items with
  | nil => intro i _ hi; exact absurd hi (by simp)
  | cons x rest ih =>
    intro i hs hi hk
    rcases List.pairwise_cons.mp hs with ⟨hhead, htail⟩
    cases i with
    | zero =>
      have hx : x.key = k := by simpa [keyAt] using hk
      simp only [List.eraseIdx_cons_zero]
      exact lookupLin_none_of_all_gt fun e he => hx ▸ hhead e he
    | succ j =>
      have hj : j < rest.length := by simpa using hi
      have hk' : keyAt rest j = k := by simpa [keyAt] using hk
      have hxe : cmpBytes x.key k = .lt := by
        rw [← hk', keyAt_eq_get hj]
        exact hhead _ (List.get_mem rest j hj)
      simp only [List.eraseIdx_cons_succ, lookupLin, hxe]
      exact ih j htail hj hk'

theorem getEntry_eraseIdx_exact {items : List Entry} (hs : SortedEntries items)
    {i : Nat} {k : ByteStr} (hi : i < items.length) (hk : keyAt items i = k) :
    getEntry (items.eraseIdx i) k = none := by
  rw [getEntry_eq_lookupLin (sorted_eraseIdx hs i) k]
  exact lookupLin_eraseIdx_exact k items i hs hi hk

theorem searchChild_eq : ∀ (bs : List (ByteStr × PTree)) (i : Nat) (k : ByteStr),
    searchChild bs i k =
      (match bs.get? i with
       | none => .deadEnd
       | some c => searchT c.2 k) := by
  intro bs
  induction bs with
  | nil => intro i k; cases i <;> rfl
  | cons c rest ih =>
    intro i k
    cases i with
    | zero => rfl
    | succ j => simpa [searchChild] using ih j k

theorem updateChild_eq : ∀ (bs : List (ByteStr × PTree)) (i : Nat)
    (k : ByteStr) (f : List Entry → List Entry),
    updateChild bs i k f =
      (match bs.get? i with
       | none => bs
       | some c => bs.set i (c.1, updateAt c.2 k f)) := by
  intro bs
  induction bs with
  | nil => intro i k f; cases i <;> rfl
  | cons c rest ih =>
    intro i k f
    cases i with
    | zero => rfl
    | succ j =>
      simp only [updateChild, List.get?_cons_succ, ih j k f]
      rcases rest.get? j with _ | c' <;> rfl

theorem updateAt_leaf (items : List Entry) (k : ByteStr)
    (f : List Entry → List Entry) :
    updateAt (.leafN items) k f = .leafN (f items) := rfl

theorem searchT_leaf (items : List Entry) (k : ByteStr) :
    searchT (.leafN items) k =
      .leafF items (indexOf items k).1 (indexOf items k).2 := rfl

theorem searchT_branch_some {bs : List (ByteStr × PTree)} {c : ByteStr × PTree}
    {k : ByteStr} (hget : bs.get? (indexBranch bs k).1 = some c) :
    searchT (.branchN bs) k = searchT c.2 k := by
  show searchChild bs (indexBranch bs k).1 k = _
  rw [searchChild_eq, hget]

theorem searchT_branch_none {bs : List (ByteStr × PTree)} {k : ByteStr}
    (hget : bs.get? (indexBranch bs k).1 = none) :
    searchT (.branchN bs) k = .deadEnd := by
  show searchChild bs (indexBranch bs k).1 k = _
  rw [searchChild_eq, hget]

theorem updateAt_branch_some {bs : List (ByteStr × PTree)} {c : ByteStr × PTree}
    {k : ByteStr} (hget : bs.get? (indexBranch bs k).1 = some c)
    (f : List Entry → List Entry) :
    updateAt (.branchN bs) k f =
      .branchN (bs.set (indexBranch bs k).1 (c.1, updateAt c.2 k f)) := by
  show PTree.branchN (updateChild bs (indexBranch bs k).1 k f) = _
  rw [updateChild_eq, hget]

theorem updateAt_branch_none {bs : List (ByteStr × PTree)} {k : ByteStr}
    (hget : bs.get? (indexBranch bs k).1 = none)
    (f : List Entry → List Entry) :
    updateAt (.branchN bs) k f = .branchN bs := by
  show PTree.branchN (updateChild bs (indexBranch bs k).1 k f) = _
  rw [updateChild_eq, hget]

theorem indexBranch_lt {bs : List (ByteStr × PTree)} (hbs : bs ≠ [])
    (k : ByteStr) : (indexBranch bs k).1 < bs.length := by
  have hlen : 0 < bs.length := List.length_pos.mpr hbs
  unfold indexBranch binarySearch
  have := bsGo_bounds (fun i => cmpBytes (branchKeyAt bs i) k) bs.length 0
    bs.length (by omega)
  rcases h : bsGo (fun i => cmpBytes (branchKeyAt bs i) k) bs.length 0 bs.length
    with i | i <;> rw [h] at this <;> simp only <;> omega

/-- On a well-formed tree, `search` always ends at a sorted leaf frame,
whose index and exact flag are the `index` results on that leaf. -/
theorem searchT_wf {t : PTree} (hwf : WfT t) (k : ByteStr) :
    ∃ items, searchT t k =
        .leafF items (indexOf items k).1 (indexOf items k).2 ∧
      SortedEntries items := by
  induction hwf with
  | leaf hs => exact ⟨_, searchT_leaf _ k, hs⟩
  | branch hne hmem ih =>
    rename_i bs
    have hlt := indexBranch_lt hne k
    rcases hget : bs.get? (indexBranch bs k).1 with _ | c
    · rw [List.get?_eq_none] at hget
      omega
    · have hcmem : c ∈ bs := List.get?_mem hget
      rw [searchT_branch_some hget]
      exact ih c hcmem

/-- The keys of a branch list are unchanged when one child subtree is
replaced (the `set` keeps the stored key). -/
theorem branchKeyAt_set {bs : List (ByteStr × PTree)} {i : Nat}
    {c : ByteStr × PTree} (hget : bs.get? i = some c) (t' : PTree) (j : Nat) :
    branchKeyAt (bs.set i (c.1, t')) j = branchKeyAt bs j := by
  unfold branchKeyAt
  by_cases hij : j = i
  · subst hij
    rcases List.get?_eq_some.mp hget with ⟨hj, _⟩
    rw [List.get?_set_eq_of_lt _ hj, hget]
    cases c
    rfl
  · rw [List.get?_set_ne _ _ (fun h => hij h.symm)]

theorem indexBranch_set {bs : List (ByteStr × PTree)} {i : Nat}
    {c : ByteStr × PTree} (hget : bs.get? i = some c) (t' : PTree)
    (k : ByteStr) : indexBranch (bs.set i (c.1, t')) k = indexBranch bs k := by
  unfold indexBranch
  have hkeys : ∀ j, branchKeyAt (bs.set i (c.1, t')) j = branchKeyAt bs j :=
    branchKeyAt_set hget t'
  have hfun : (fun j => cmpBytes (branchKeyAt (bs.set i (c.1, t')) j) k)
      = fun j => cmpBytes (branchKeyAt bs j) k := by
    funext j
    rw [hkeys j]
  rw [hfun, List.length_set]

/-- `search` on the updated tree descends the same path and lands in the
same leaf, now holding `f items`. -/
theorem searchT_updateAt {t : PTree} (hwf : WfT t) (k : ByteStr)
    (f : List Entry → List Entry) :
    ∀ {items i ex}, searchT t k = .leafF items i ex →
      searchT (updateAt t k f) k =
        .leafF (f items) (indexOf (f items) k).1 (indexOf (f items) k).2 := by
  induction hwf with
  | leaf hs =>
    intro items i ex h
    simp only [searchT] at h
    injection h with h1 h2 h3
    subst h1
    simp [updateAt, searchT]
  | branch hne hmem ih =>
    rename_i bs
    intro items i ex h
    have hlt := indexBranch_lt hne k
    rcases hget : bs.get? (indexBranch bs k).1 with _ | c
    · rw [List.get?_eq_none] at hget
      omega
    · have hcmem : c ∈ bs := List.get?_mem hget
      rw [searchT_branch_some hget] at h
      have hrec := ih c hcmem h
      have hidx := indexBranch_set hget (updateAt c.2 k f) k
      have hget' : (bs.set (indexBranch bs k).1
          (c.1, updateAt c.2 k f)).get? (indexBranch (bs.set (indexBranch bs k).1
            (c.1, updateAt c.2 k f)) k).1
          = some (c.1, updateAt c.2 k f) := by
        rw [hidx]
        exact List.get?_set_eq_of_lt _ hlt
      rw [updateAt_branch_some hget f, searchT_branch_some hget']
      exact hrec

/-- `updateAt` preserves well-formedness whenever the leaf mutation
preserves sortedness. -/
theorem wfT_updateAt {t : PTree} (hwf : WfT t) (k : ByteStr)
    {f : List Entry → List Entry}
    (hf : ∀ items, SortedEntries items → SortedEntries (f items)) :
    WfT (updateAt t k f) := by
  induction hwf with
  | leaf hs =>
    rw [updateAt_leaf]
    exact WfT.leaf (hf _ hs)
  | branch hne hmem ih =>
    rename_i bs
    rcases hget : bs.get? (indexBranch bs k).1 with _ | c
    · rw [updateAt_branch_none hget f]
      exact WfT.branch hne hmem
    · have hcmem : c ∈ bs := List.get?_mem hget
      rw [updateAt_branch_some hget f]
      refine WfT.branch ?_ ?_
      · intro hnil
        have := congrArg List.length hnil
        simp at this
        exact hne this
      · intro p hp
        rcases List.mem_or_eq_of_mem_set hp with h | h
        · exact hmem p h
        · subst h
          exact ih c hcmem

/-! Round-trip lemmas -/
/-- A successful `put_leaf` leaves the tree updated at the searched leaf
with `insert_data`, and everything else except possibly `next_int`
untouched. -/
theorem putLeaf_ok_tree {st : BState} {e : Entry} {o : Option Entry}
    {st' : BState} (h : putLeaf st e = (.ok o, st')) :
    st'.tree = updateAt st.tree e.key (insertData e) ∧ st'.cache = st.cache := by
  unfold putLeaf at h
  split at h
  · simp at h
  · split at h
    · split at h
      · simp at h
      · split at h
        · simp at h
        · rw [Prod.mk.injEq] at h
          rw [← h.2]
          exact ⟨rfl, rfl⟩
    · rw [Prod.mk.injEq] at h
      rw [← h.2]
      exact ⟨rfl, rfl⟩

theorem innerPut_ok_putLeaf {st : BState} {k v : ByteStr}
    {res : Option (ByteStr × ByteStr)} {st' : BState}
    (h : innerPut st k v = (.ok res, st')) :
    ∃ o, putLeaf st (.kv k v) = (.ok o, st') := by
  unfold innerPut at h
  split at h <;> rw [Prod.mk.injEq] at h
  · rename_i heq
    exact ⟨_, by rw [heq, h.2]⟩
  · exact absurd h.1 (by simp)
  · rename_i heq
    exact ⟨_, by rw [heq, h.2]⟩
  · exact absurd h.1 (by simp)
  · exact absurd h.1 (by simp)

/-- Reading back through the same search path after a leaf mutation:
the descent is unchanged (branch contents are untouched), so the read
reduces to `getEntry` on the mutated leaf. -/
theorem innerGet_updated {t : PTree} {k : ByteStr} (hwf : WfT t)
    {items : List Entry} {i : Nat} {ex : Bool}
    (hsrch : searchT t k = .leafF items i ex)
    (f : List Entry → List Entry) {st' : BState}
    (htree : st'.tree = updateAt t k f) :
    innerGet st' k = getEntry (f items) k := by
  unfold innerGet
  rw [htree, searchT_updateAt hwf k f hsrch]
  rcases hio : indexOf (f items) k with ⟨j, b⟩
  simp only [getEntry, hio]
  cases b <;> rfl

theorem putLeaf_err {st : BState} {e : Entry} {er : Err} {st' : BState}
    (h : putLeaf st e = (.err er, st')) :
    st' = st ∧ er = .incompatibleValue := by
  unfold putLeaf at h
  split at h
  · simp at h
  · split at h
    · split at h
      · simp at h
      · split at h
        · rw [Prod.mk.injEq] at h
          refine ⟨h.2.symm, ?_⟩
          injection h.1 with h1
          exact h1.symm
        · simp at h
    · simp at h

theorem innerPut_err {st : BState} {k v : ByteStr} {er : Err} {st' : BState}
    (h : innerPut st k v = (.err er, st')) :
    st' = st ∧ er = .incompatibleValue := by
  unfold innerPut at h
  split at h <;> rw [Prod.mk.injEq] at h
  · exact absurd h.1 (by simp)
  · exact absurd h.1 (by simp)
  · exact absurd h.1 (by simp)
  · rename_i e0 st0 heq
    injection h.1 with h1
    subst h1
    exact putLeaf_err (h.2 ▸ heq)
  · exact absurd h.1 (by simp)

theorem innerDelete_err {st : BState} {k : ByteStr} {er : Err} {st' : BState}
    (h : innerDelete st k = (.err er, st')) :
    st' = st ∧ (er = .incompatibleValue ∨ er = .keyValueMissing) := by
  unfold innerDelete at h
  split at h
  · split at h
    · simp at h
    · split at h
      · split at h
        · simp at h
        · simp at h
      · rw [Prod.mk.injEq] at h
        refine ⟨h.2.symm, Or.inl ?_⟩
        injection h.1 with h1
        exact h1.symm
  · rw [Prod.mk.injEq] at h
    refine ⟨h.2.symm, Or.inr ?_⟩
    injection h.1 with h1
    exact h1.symm

/-- C10: whenever `Bucket::put` or `Bucket::delete` returns an error
(`ReadOnlyTx`, `IncompatibleValue`, or `KeyValueMissing`), the observable
bucket state — tree contents, `next_int`, and sub-bucket map — is
exactly the state before the call. -/
theorem spec_C10_error_preserves_state (w : Bool) (st : BState) (k v : ByteStr) :
    (∀ e st', bucketPut w st k v = (.err e, st') →
      st' = st ∧ (e = .readOnlyTx ∨ e = .incompatibleValue)) ∧
    (∀ e st', bucketDelete w st k = (.err e, st') →
      st' = st ∧ (e = .readOnlyTx ∨ e = .incompatibleValue ∨
        e = .keyValueMissing)) := by
  constructor
  · intro e st' h
    unfold bucketPut at h
    cases w with
    | false =>
      simp only [Bool.not_false, if_pos] at h
      rw [Prod.mk.injEq] at h
      refine ⟨h.2.symm, Or.inl ?_⟩
      injection h.1 with h1
      exact h1.symm
    | true =>
      simp only [Bool.not_true, if_neg, Bool.false_eq_true, not_false_iff] at h
      rcases innerPut_err h with ⟨h1, h2⟩
      exact ⟨h1, Or.inr h2⟩
  · intro e st' h
    unfold bucketDelete at h
    cases w with
    | false =>
      simp only [Bool.not_false, if_pos] at h
      rw [Prod.mk.injEq] at h
      refine ⟨h.2.symm, Or.inl ?_⟩
      injection h.1 with h1
      exact h1.symm
    | true =>
      simp only [Bool.not_true, if_neg, Bool.false_eq_true, not_false_iff] at h
      rcases innerDelete_err h with ⟨h1, h2⟩
      exact ⟨h1, h2.elim (fun a => Or.inr (Or.inl a)) (fun b => Or.inr (Or.inr b))⟩

/-- C1: round-trip behaviour of a bucket in a writable transaction:
after `put(k, v)` succeeds, `get(k)` returns a pair whose value is `v`;
if `put(k, v1)` succeeded then `put(k, v2)` succeeds and returns the
previously stored pair `(k, v1)`; and after `delete(k)` succeeds,
`get(k)` returns `None`. -/
theorem spec_C1_put_get_delete_roundtrip (st : BState) (k v v1 v2 : ByteStr)
    (hwf : WfT st.tree) :
    (∀ res st', innerPut st k v = (.ok res, st') →
      innerGet st' k = some (.kv k v)) ∧
    (∀ r1 st1, innerPut st k v1 = (.ok r1, st1) →
      ∃ st2, innerPut st1 k v2 = (.ok (some (k, v1)), st2)) ∧
    (∀ r st', innerDelete st k = (.ok r, st') → innerGet st' k = none) := by
  have hpart1 : ∀ v0 res st', innerPut st k v0 = (.ok res, st') →
      innerGet st' k = some (.kv k v0) := by
    intro v0 res st' h
    rcases innerPut_ok_putLeaf h with ⟨o, hpl⟩
    have htree := (putLeaf_ok_tree hpl).1
    rcases searchT_wf hwf k with ⟨items, hsrch, hsort⟩
    rw [innerGet_updated hwf hsrch (insertData (.kv k v0)) htree]
    exact getEntry_insertData hsort (.kv k v0)
  refine ⟨hpart1 v, ?_, ?_⟩
  · intro r1 st1 h1
    have hget1 := hpart1 v1 r1 st1 h1
    unfold innerGet at hget1
    cases hs1 : searchT st1.tree k with
    | deadEnd =>
      rw [hs1] at hget1
      exact absurd hget1 (by simp)
    | leafF items2 i2 ex2 =>
      rw [hs1] at hget1
      cases ex2 with
      | false => exact absurd hget1 (by simp)
      | true =>
        simp only at hget1
        refine ⟨{ st1 with tree := updateAt st1.tree k (insertData (.kv k v2)) }, ?_⟩
        unfold innerPut putLeaf
        simp only [Entry.key, hs1, if_pos, hget1, Entry.isKv]
        rfl
  · intro r st' h
    unfold innerDelete at h
    split at h
    · rename_i items i hs
      split at h
      · simp at h
      · rename_i data hg
        split at h
        · split at h
          · rename_i k0 v0
            rw [Prod.mk.injEq] at h
            have htree : st'.tree = updateAt st.tree k (fun l => l.eraseIdx i) := by
              rw [← h.2]
            rcases searchT_wf hwf k with ⟨items0, hsrch0, hsort0⟩
            have hframe : SearchFrame.leafF items i true
                = SearchFrame.leafF items0 (indexOf items0 k).1 (indexOf items0 k).2 := by
              rw [← hs, ← hsrch0]
            injection hframe with hi1 hi2 hi3
            subst hi1
            have hio : indexOf items k = (i, true) := by
              rcases hp : indexOf items k with ⟨a, b⟩
              rw [hp] at hi2 hi3
              simp only at hi2 hi3
              rw [← hi2, ← hi3]
            have hfound : entrySearch items k = .inl i := by
              unfold indexOf at hio
              rcases he : entrySearch items k with j | j <;> rw [he] at hio <;>
                rw [Prod.mk.injEq] at hio
              · rw [hio.1]
              · exact absurd hio.2 (by simp)
            rcases entrySearch_found hsort0 hfound with ⟨hilen, hkey⟩
            rw [innerGet_updated hwf hs (fun l => l.eraseIdx i) htree]
            exact getEntry_eraseIdx_exact hsort0 hilen hkey
          · simp at h
        · simp at h
    · simp at h

/-! `next_int` lemmas -/
theorem putLeaf_nextInt (st : BState) (e : Entry) :
    (putLeaf st e).2.nextInt = st.nextInt ∨
      (putLeaf st e).2.nextInt = st.nextInt + 1 := by
  unfold putLeaf
  split
  · right; rfl
  · split
    · split
      · left; rfl
      · split
        · left; rfl
        · left; rfl
    · right; rfl

theorem innerPut_snd (st : BState) (k v : ByteStr) :
    (innerPut st k v).2 = (putLeaf st (.kv k v)).2 := by
  unfold innerPut
  rcases hp : putLeaf st (.kv k v) with ⟨r0, s0⟩
  rcases r0 with o | e | _
  · rcases o with _ | e0
    · rfl
    · rcases e0 with ⟨k0, v0⟩ | ⟨n0, m0⟩ <;> rfl
  · rfl
  · rfl

theorem innerDelete_nextInt (st : BState) (k : ByteStr) :
    (innerDelete st k).2.nextInt = st.nextInt := by
  unfold innerDelete
  split
  · split
    · rfl
    · split
      · split <;> rfl
      · rfl
  · rfl

theorem bucketGetter_ro_nextInt (st : BState) (name : ByteStr) (mc : Bool) :
    (bucketGetter st name false mc).2.nextInt = st.nextInt := by
  unfold bucketGetter
  split
  · split <;> rfl
  · split
    · split
      · split <;> try rfl
        split <;> rfl
      · rfl
    · rfl

theorem innerDeleteBucket_nextInt (st : BState) (name : ByteStr) :
    (innerDeleteBucket st name).2.nextInt = st.nextInt := by
  unfold innerDeleteBucket
  rcases hb : bucketGetter st name false false with ⟨rb, sb⟩
  have hsb : sb.nextInt = st.nextInt := by
    have := bucketGetter_ro_nextInt st name false
    rw [hb] at this
    exact this
  rcases rb with u | e | _
  · simp only
    split
    · split
      · exact hsb
      · split
        · exact hsb
        · exact hsb
    · exact hsb
  · exact hsb
  · exact hsb

theorem bucketGetter_create_nextInt (st : BState) (hwf : WfT st.tree)
    (name : ByteStr) (sc mc : Bool) :
    (bucketGetter st name sc mc).2.nextInt = st.nextInt +
      (if name ∉ st.cache ∧ innerGet st name = none ∧ sc = true
       then 1 else 0) := by
  rcases searchT_wf hwf name with ⟨items, hsrch, hsort⟩
  unfold bucketGetter
  by_cases hc : name ∈ st.cache
  · simp only [if_pos hc]
    split <;> simp [hc]
  · simp only [if_neg hc]
    rcases hio : indexOf items name with ⟨i, ex⟩
    rw [hsrch, hio]
    cases ex with
    | true =>
      have hfound : entrySearch items name = .inl i := by
        unfold indexOf at hio
        rcases he : entrySearch items name with j | j <;> rw [he] at hio <;>
          rw [Prod.mk.injEq] at hio
        · rw [hio.1]
        · exact absurd hio.2 (by simp)
      rcases entrySearch_found hsort hfound with ⟨hilen, _⟩
      have hginner : innerGet st name = items.get? i := by
        unfold innerGet
        rw [hsrch, hio]
      rcases hg : items.get? i with _ | cur
      · rw [List.get?_eq_none] at hg
        omega
      · have hsome : ¬ (innerGet st name = none) := by
          rw [hginner, hg]
          simp
        rw [List.get?_eq_getElem?] at hg
        rcases cur with ⟨k0, v0⟩ | ⟨n0, m0⟩
        · simp [hg, hsome]
        · cases mc <;> simp [hg, hsome]
    | false =>
      have hnone : innerGet st name = none := by
        unfold innerGet
        rw [hsrch, hio]
      cases sc with
      | true => simp [hc, hnone]
      | false => simp [hc, hnone]

theorem applyOp_nextInt_mono (st : BState) (op : BOp) :
    st.nextInt ≤ (applyOp st op).nextInt := by
  cases op with
  | getOp k => exact le_refl _
  | putOp k v =>
    show st.nextInt ≤ (innerPut st k v).2.nextInt
    rw [innerPut_snd]
    rcases putLeaf_nextInt st (.kv k v) with h | h <;> omega
  | delOp k =>
    show st.nextInt ≤ (innerDelete st k).2.nextInt
    rw [innerDelete_nextInt]
  | getBucketOp n =>
    show st.nextInt ≤ (bucketGetter st n false false).2.nextInt
    rw [bucketGetter_ro_nextInt]
  | createBucketOp n =>
    show st.nextInt ≤ (bucketGetter st n true true).2.nextInt
    unfold bucketGetter
    split
    · split <;> exact le_refl _
    · split
      · split
        · split
          · split <;> exact le_refl _
          · exact le_refl _
          · exact le_refl _
        · split
          · simp
          · exact le_refl _
      · split
        · simp
        · exact le_refl _
  | getOrCreateBucketOp n =>
    show st.nextInt ≤ (bucketGetter st n true false).2.nextInt
    unfold bucketGetter
    split
    · split <;> exact le_refl _
    · split
      · split
        · split
          · split <;> exact le_refl _
          · exact le_refl _
          · exact le_refl _
        · split
          · simp
          · exact le_refl _
      · split
        · simp
        · exact le_refl _
  | deleteBucketOp n =>
    show st.nextInt ≤ (innerDeleteBucket st n).2.nextInt
    rw [innerDeleteBucket_nextInt]

theorem foldl_nextInt_mono (ops : List BOp) :
    ∀ st : BState, st.nextInt ≤ (ops.foldl applyOp st).nextInt := by
  induction ops with
  | nil => intro st; exact le_refl _
  | cons op rest ih =>
    intro st
    exact le_trans (applyOp_nextInt_mono st op) (ih (applyOp st op))

/-- C5: `next_int` is non-decreasing across every sequence of bucket
operations; a `put` bumps it by exactly 1 iff the key was absent
(and leaves it unchanged on an update), creating a new sub-bucket bumps
it by exactly 1 iff the bucket did not already exist and creation was
requested, and deletions and reads never change it. -/
theorem spec_C5_nextInt_monotone (st : BState) (hwf : WfT st.tree)
    (k v name : ByteStr) (sc mc : Bool) (ops : List BOp) :
    st.nextInt ≤ (ops.foldl applyOp st).nextInt ∧
    (innerPut st k v).2.nextInt =
      st.nextInt + (if innerGet st k = none then 1 else 0) ∧
    (bucketGetter st name sc mc).2.nextInt = st.nextInt +
      (if name ∉ st.cache ∧ innerGet st name = none ∧ sc = true
       then 1 else 0) ∧
    (innerDelete st k).2.nextInt = st.nextInt ∧
    (innerDeleteBucket st name).2.nextInt = st.nextInt := by
  refine ⟨foldl_nextInt_mono ops st, ?_,
    bucketGetter_create_nextInt st hwf name sc mc,
    innerDelete_nextInt st k, innerDeleteBucket_nextInt st name⟩
  rcases searchT_wf hwf k with ⟨items, hsrch, hsort⟩
  rcases hio : indexOf items k with ⟨i, ex⟩
  rw [innerPut_snd]
  unfold putLeaf
  simp only [Entry.key]
  rw [hsrch, hio]
  cases ex with
  | true =>
    have hfound : entrySearch items k = .inl i := by
      unfold indexOf at hio
      rcases he : entrySearch items k with j | j <;> rw [he] at hio <;>
        rw [Prod.mk.injEq] at hio
      · rw [hio.1]
      · exact absurd hio.2 (by simp)
    rcases entrySearch_found hsort hfound with ⟨hilen, _⟩
    have hginner : innerGet st k = items.get? i := by
      unfold innerGet
      rw [hsrch, hio]
    rcases hg : items.get? i with _ | cur
    · rw [List.get?_eq_none] at hg
      omega
    · have hsome : ¬ (innerGet st k = none) := by
        rw [hginner, hg]
        simp
      rw [List.get?_eq_getElem?] at hg
      cases hkv : cur.isKv != (Entry.kv k v).isKv <;> simp [hg, hsome, hkv]
  | false =>
    have hnone : innerGet st k = none := by
      unfold innerGet
      rw [hsrch, hio]
    simp [hnone]

/-! `index` and `seek` -/
theorem indexOf_true_entrySearch {items : List Entry} {k : ByteStr} {i : Nat}
    (h : indexOf items k = (i, true)) : entrySearch items k = .inl i := by
  unfold indexOf at h
  rcases he : entrySearch items k with j | j <;> rw [he] at h <;>
    rw [Prod.mk.injEq] at h
  · rw [h.1]
  · exact absurd h.2 (by simp)

theorem indexOf_false_entrySearch {items : List Entry} {k : ByteStr} {i : Nat}
    (h : indexOf items k = (i, false)) :
    ∃ j, entrySearch items k = .inr j ∧ i = j - 1 := by
  unfold indexOf at h
  rcases he : entrySearch items k with j | j <;> rw [he] at h <;>
    rw [Prod.mk.injEq] at h
  · exact absurd h.2 (by simp)
  · exact ⟨j, rfl, h.1.symm⟩

/-- C9: on a sorted page or node, `index(key)` returns `(pos, true)` with
`pos` the position of the key when present; otherwise `(pos, false)`
where `pos` is the index of the greatest element whose key is below the
search key, clamped to 0 when every element's key is greater; and
`Cursor::seek(key)` returns whether the key exists and leaves the
cursor's top frame at the leaf and position that `index` computes
there. -/
theorem spec_C9_index_and_seek (items : List Entry) (k : ByteStr)
    (hs : SortedEntries items) (t : PTree) (hwf : WfT t) :
    ((∀ i, indexOf items k = (i, true) →
        ∃ e, items.get? i = some e ∧ e.key = k) ∧
     (k ∈ items.map Entry.key → (indexOf items k).2 = true) ∧
     (∀ i, indexOf items k = (i, false) →
        k ∉ items.map Entry.key ∧
        ((∃ j, j < items.length ∧ ltB (keyAt items j) k) →
          i < items.length ∧ ltB (keyAt items i) k ∧
            (∀ j, j < items.length → ltB (keyAt items j) k → j ≤ i)) ∧
        ((∀ j, j < items.length → ltB k (keyAt items j)) → i = 0))) ∧
    (∃ leafItems, SortedEntries leafItems ∧
      cursorSeek t k =
        ((indexOf leafItems k).2,
         .leafF leafItems (indexOf leafItems k).1 (indexOf leafItems k).2)) := by
  refine ⟨⟨?_, ?_, ?_⟩, ?_⟩
  · intro i h
    have he := indexOf_true_entrySearch h
    rcases entrySearch_found hs he with ⟨hilen, hkey⟩
    refine ⟨items.get ⟨i, hilen⟩, List.get?_eq_get hilen, ?_⟩
    rw [← keyAt_eq_get hilen]
    exact hkey
  · intro hmem
    rcases he : entrySearch items k with j | j
    · unfold indexOf
      rw [he]
    · exact absurd hmem (entrySearch_missed_not_mem hs he)
  · intro i h
    rcases indexOf_false_entrySearch h with ⟨j, he, hij⟩
    rcases entrySearch_missed hs he with ⟨hjlen, hlt, hgt⟩
    refine ⟨entrySearch_missed_not_mem hs he, ?_, ?_⟩
    · rintro ⟨j0, hj0len, hj0lt⟩
      have hj0j : j0 < j := by
        by_contra hc
        exact ltB_asymm hj0lt (hgt j0 (by omega) hj0len)
      have hj1 : 1 ≤ j := by omega
      refine ⟨by omega, ?_, ?_⟩
      · rw [hij]
        exact hlt (j - 1) (by omega)
      · intro j' hj'len hj'lt
        have : j' < j := by
          by_contra hc
          exact ltB_asymm hj'lt (hgt j' (by omega) hj'len)
        omega
    · intro hall
      rcases Nat.eq_zero_or_pos j with hj0 | hj0
      · omega
      · have hlen : 0 < items.length := by
          by_contra hc
          have : j = 0 := by omega
          omega
        exact absurd (hlt 0 hj0) (ltB_asymm (hall 0 hlen))
  · rcases searchT_wf hwf k with ⟨items0, hsrch, hsort0⟩
    refine ⟨items0, hsort0, ?_⟩
    unfold cursorSeek
    rw [hsrch]

/-! Freelist allocation -/
theorem allocLoop_nil (n start prev : Nat) : allocLoop n [] start prev = 0 := rfl

theorem allocLoop_cons_consec {n id prev : Nat} (start : Nat)
    (hprev : prev ≠ 0) (hid : id = prev + 1) :
    allocLoop n (id :: R) start prev =
      if id - start + 1 = n then start else allocLoop n R start id := by
  have hcond : ¬ (prev = 0 ∨ id - prev ≠ 1) := by
    push_neg
    omega
  simp only [allocLoop, if_neg hcond]

theorem allocLoop_cons_jump {n id prev : Nat} (start : Nat)
    (hid : prev = 0 ∨ id - prev ≠ 1) :
    allocLoop n (id :: R) start prev =
      if id - id + 1 = n then id else allocLoop n R id id := by
  simp only [allocLoop, if_pos hid]

/-- Invariant-carrying correctness of the scan loop in its live state:
`start..prev` is the consecutive run currently being extended, shorter
than `n`, and all remaining ids exceed `prev`.  The loop returns the
least start of a length-`n` run in the state's page set, or 0 when no
such run exists. -/
theorem allocLoop_live (n : Nat) :
    ∀ (R : List Nat) (start prev : Nat),
    1 ≤ start → start ≤ prev → prev + 1 - start < n →
    List.Pairwise (· < ·) R → (∀ x ∈ R, prev < x) →
    ((allocLoop n R start prev = 0 →
        ∀ u, ¬ (∀ j, j < n → inT start prev R (u + j))) ∧
     (0 < allocLoop n R start prev →
        (∀ j, j < n → inT start prev R (allocLoop n R start prev + j)) ∧
        ∀ u, (∀ j, j < n → inT start prev R (u + j)) →
          allocLoop n R start prev ≤ u)) := by
  intro R
  induction R with
  | nil =>
    intro start prev hstart hsp hblock _ _
    constructor
    · intro _ u hrun
      have hn2 : 2 ≤ n := by omega
      have h0 := hrun 0 (by omega)
      have h1 := hrun (n - 1) (by omega)
      simp only [inT, List.not_mem_nil, or_false] at h0 h1
      omega
    · intro h
      rw [allocLoop_nil] at h
      omega
  | cons id R' ih =>
    intro start prev hstart hsp hblock hsort hgtprev
    have hn2 : 2 ≤ n := by omega
    have hidgt : prev < id := hgtprev id (List.mem_cons_self id R')
    rcases List.pairwise_cons.mp hsort with ⟨hhead, htail⟩
    by_cases hA : id = prev + 1
    · -- consecutive: the run extends
      rw [allocLoop_cons_consec start (by omega) hA]
      by_cases hfound : id - start + 1 = n
      · rw [if_pos hfound]
        constructor
        · intro h; omega
        · intro _
          constructor
          · intro j hj
            unfold inT
            by_cases hjp : start + j ≤ prev
            · exact Or.inl ⟨by omega, hjp⟩
            · have : start + j = id := by omega
              exact Or.inr (this ▸ List.mem_cons_self id R')
          · intro u hrun
            have h0 := hrun 0 (by omega)
            simp only [inT, List.mem_cons] at h0
            rcases h0 with ⟨h, _⟩ | h | h
            · omega
            · omega
            · have := hhead u h
              omega
      · rw [if_neg hfound]
        have hiff : ∀ m, inT start id R' m ↔ inT start prev (id :: R') m := by
          intro m
          simp only [inT, List.mem_cons]
          constructor
          · rintro (⟨h1, h2⟩ | h)
            · by_cases hm : m ≤ prev
              · exact Or.inl ⟨h1, hm⟩
              · exact Or.inr (Or.inl (by omega))
            · exact Or.inr (Or.inr h)
          · rintro (⟨h1, h2⟩ | h | h)
            · exact Or.inl ⟨h1, by omega⟩
            · exact Or.inl (by omega)
            · exact Or.inr h
        have := ih start id hstart (by omega) (by omega) htail hhead
        constructor
        · intro h u hrun
          refine (this.1 h) u ?_
          intro j hj
          rw [hiff]
          exact hrun j hj
        · intro h
          rcases (this.2 h) with ⟨hrun, hleast⟩
          constructor
          · intro j hj
            rw [← hiff]
            exact hrun j hj
          · intro u hu
            refine hleast u ?_
            intro j hj
            rw [hiff]
            exact hu j hj
    · -- gap: the run restarts at id
      rw [allocLoop_cons_jump start (Or.inr (by omega))]
      rw [if_neg (by omega)]
      have hnobelow : ∀ u, u < id →
          ¬ (∀ j, j < n → inT start prev (id :: R') (u + j)) := by
        intro u hu hrun
        have h0 := hrun 0 (by omega)
        simp only [inT, List.mem_cons] at h0
        have huint : start ≤ u ∧ u ≤ prev := by
          rcases h0 with ⟨h1, h2⟩ | h | h
          · exact ⟨h1, by omega⟩
          · omega
          · have := hhead u h
            omega
        have hj0 := hrun (prev + 1 - u) (by omega)
        simp only [inT, List.mem_cons] at hj0
        rcases hj0 with ⟨_, h⟩ | h | h
        · omega
        · omega
        · have := hhead (u + (prev + 1 - u)) h
          omega
      have hge : ∀ m, id ≤ m →
          (inT id id R' m ↔ inT start prev (id :: R') m) := by
        intro m hm
        simp only [inT, List.mem_cons]
        constructor
        · rintro (⟨h1, h2⟩ | h)
          · exact Or.inr (Or.inl (by omega))
          · exact Or.inr (Or.inr h)
        · rintro (⟨h1, h2⟩ | h | h)
          · omega
          · exact Or.inl (by omega)
          · exact Or.inr h
      have := ih id id (by omega) (le_refl id) (by omega) htail hhead
      constructor
      · intro h u hrun
        by_cases hu : u < id
        · exact hnobelow u hu hrun
        · refine (this.1 h) u ?_
          intro j hj
          rw [hge (u + j) (by omega)]
          exact hrun j hj
      · intro h
        rcases (this.2 h) with ⟨hrun, hleast⟩
        set res := allocLoop n R' id id with hres
        have hresge : id ≤ res := by
          have h0 := hrun 0 (by omega)
          simp only [inT] at h0
          rcases h0 with ⟨h1, _⟩ | h0
          · omega
          · have := hhead res h0
            omega
        constructor
        · intro j hj
          rw [← hge (res + j) (by omega)]
          exact hrun j hj
        · intro u hu
          have huge : ¬ u < id := fun hc => hnobelow u hc hu
          refine hleast u ?_
          intro j hj
          rw [hge (u + j) (by omega)]
          exact hu j hj

/-- The scan from its initial state `(start, prev) = (0, 0)`. -/
theorem allocLoop_initial (n : Nat) (hn : 1 ≤ n) (xs : List Nat)
    (hsort : List.Pairwise (· < ·) xs) (hids : ∀ x ∈ xs, 2 ≤ x) :
    (allocLoop n xs 0 0 = 0 → ∀ u, ¬ (∀ j, j < n → u + j ∈ xs)) ∧
    (0 < allocLoop n xs 0 0 →
      (∀ j, j < n → allocLoop n xs 0 0 + j ∈ xs) ∧
      ∀ u, (∀ j, j < n → u + j ∈ xs) → allocLoop n xs 0 0 ≤ u) := by
  cases xs with
  | nil =>
    constructor
    · intro _ u hrun
      exact absurd (hrun 0 (by omega)) (List.not_mem_nil _)
    · intro h
      rw [allocLoop_nil] at h
      omega
  | cons x xs' =>
    rcases List.pairwise_cons.mp hsort with ⟨hhead, htail⟩
    have hx2 : 2 ≤ x := hids x (List.mem_cons_self x xs')
    have hstep : allocLoop n (x :: xs') 0 0
        = if x - x + 1 = n then x else allocLoop n xs' x x :=
      allocLoop_cons_jump 0 (Or.inl rfl)
    by_cases hn1 : x - x + 1 = n
    · rw [hstep, if_pos hn1]
      constructor
      · intro h
        omega
      · intro _
        have hn1' : n = 1 := by omega
        constructor
        · intro j hj
          have : j = 0 := by omega
          subst this
          exact List.mem_cons_self x xs'
        · intro u hrun
          have h0 := hrun 0 (by omega)
          rcases List.mem_cons.mp h0 with h | h
          · omega
          · have := hhead u h
            omega
    · rw [hstep, if_neg hn1]
      have hn2 : 2 ≤ n := by omega
      have hiff : ∀ m, inT x x xs' m ↔ m ∈ x :: xs' := by
        intro m
        simp only [inT, List.mem_cons]
        constructor
        · rintro (⟨h1, h2⟩ | h)
          · exact Or.inl (by omega)
          · exact Or.inr h
        · rintro (h | h)
          · exact Or.inl ⟨by omega, by omega⟩
          · exact Or.inr h
      have := allocLoop_live n xs' x x (by omega) (le_refl x) (by omega)
        htail hhead
      constructor
      · intro h u hrun
        refine (this.1 h) u ?_
        intro j hj
        rw [hiff]
        exact hrun j hj
      · intro h
        rcases (this.2 h) with ⟨hrun, hleast⟩
        constructor
        · intro j hj
          rw [← hiff]
          exact hrun j hj
        · intro u hu
          refine hleast u ?_
          intro j hj
          rw [hiff]
          exact hu j hj

/-- C7: `Freelist::allocate(n)` implements first fit.  On an ascending
free set (all ids above the meta pages) it returns the lowest `start`
beginning `n` contiguous free ids and removes exactly those `n` ids,
leaving `pending` untouched; when no such run exists it returns `None`
and leaves the freelist unchanged. -/
theorem spec_C7_allocate_first_fit (fl : Freelist) (n : Nat) (hn : 1 ≤ n)
    (hsort : List.Pairwise (· < ·) fl.freePages)
    (hids : ∀ id ∈ fl.freePages, 2 ≤ id) :
    ((∃ s, ∀ j, j < n → s + j ∈ fl.freePages) →
      ∃ s, (∀ j, j < n → s + j ∈ fl.freePages) ∧
        (∀ u, (∀ j, j < n → u + j ∈ fl.freePages) → s ≤ u) ∧
        (fl.allocate n).1 = some s ∧
        (∀ m, m ∈ (fl.allocate n).2.freePages ↔
          (m ∈ fl.freePages ∧ ¬ (s ≤ m ∧ m < s + n))) ∧
        (fl.allocate n).2.pending = fl.pending) ∧
    ((¬ ∃ s, ∀ j, j < n → s + j ∈ fl.freePages) →
      fl.allocate n = (none, fl)) := by
  have hinit := allocLoop_initial n hn fl.freePages hsort hids
  constructor
  · rintro ⟨s0, hs0⟩
    have hne : fl.freePages ≠ [] := by
      intro hnil
      have := hs0 0 (by omega)
      rw [hnil] at this
      exact List.not_mem_nil _ this
    have hfpos : 0 < allocLoop n fl.freePages 0 0 := by
      rcases Nat.eq_zero_or_pos (allocLoop n fl.freePages 0 0) with h | h
      · exact absurd hs0 (hinit.1 h s0)
      · exact h
    rcases hinit.2 hfpos with ⟨hrun, hleast⟩
    refine ⟨allocLoop n fl.freePages 0 0, hrun, hleast, ?_, ?_, ?_⟩
    · unfold Freelist.allocate
      rw [if_neg hne, if_pos hfpos]
    · intro m
      have hpred : ∀ (f k m : Nat),
          ((!(decide (f ≤ m) && decide (m < f + k))) = true ↔
            ¬ (f ≤ m ∧ m < f + k)) := by
        intro f k m
        by_cases ha : f ≤ m <;> by_cases hb : m < f + k <;> simp [ha, hb]
      unfold Freelist.allocate
      rw [if_neg hne]
      simp only [if_pos hfpos, List.mem_filter, hpred]
    · unfold Freelist.allocate
      rw [if_neg hne]
      simp only [if_pos hfpos]
  · intro hno
    rcases hnil : fl.freePages with _ | ⟨x, xs'⟩
    · unfold Freelist.allocate
      rw [hnil]
      simp
    · have hne : fl.freePages ≠ [] := by rw [hnil]; simp
      have hf0 : allocLoop n fl.freePages 0 0 = 0 := by
        rcases Nat.eq_zero_or_pos (allocLoop n fl.freePages 0 0) with h | h
        · exact h
        · rcases hinit.2 h with ⟨hrun, _⟩
          exact absurd ⟨_, hrun⟩ hno
      unfold Freelist.allocate
      rw [if_neg hne]
      simp only [hf0]
      rfl

/-! Freelist pending-queue lemmas -/
theorem mem_insertSorted {m i : Nat} : ∀ {l : List Nat},
    m ∈ insertSorted i l ↔ m = i ∨ m ∈ l := by
  intro l
  induction l with
  | nil => simp [insertSorted]
  | cons x rest ih =>
    simp only [insertSorted]
    by_cases h1 : i < x
    · rw [if_pos h1]
      simp only [List.mem_cons]
    · by_cases h2 : i = x
      · subst h2
        rw [if_neg h1, if_pos rfl]
        simp only [List.mem_cons]
        tauto
      · rw [if_neg h1, if_neg h2]
        simp only [List.mem_cons, ih]
        tauto

theorem sorted_insertSorted {i : Nat} : ∀ {l : List Nat},
    List.Pairwise (· < ·) l → List.Pairwise (· < ·) (insertSorted i l) := by
  intro l
  induction l with
  | nil => intro _; simp [insertSorted]
  | cons x rest ih =>
    intro hs
    rcases List.pairwise_cons.mp hs with ⟨hhead, htail⟩
    simp only [insertSorted]
    by_cases h1 : i < x
    · rw [if_pos h1]
      refine List.pairwise_cons.mpr ⟨?_, hs⟩
      intro b hb
      rcases List.mem_cons.mp hb with h | h
      · omega
      · have := hhead b h
        omega
    · by_cases h2 : i = x
      · rw [if_neg h1, if_pos h2]
        exact hs
      · rw [if_neg h1, if_neg h2]
        refine List.pairwise_cons.mpr ⟨?_, ih htail⟩
        intro b hb
        rcases mem_insertSorted.mp hb with h | h
        · omega
        · exact hhead b h

theorem mem_insertAllSorted {m : Nat} : ∀ (ids s : List Nat),
    m ∈ insertAllSorted ids s ↔ m ∈ ids ∨ m ∈ s := by
  intro ids
  induction ids with
  | nil => intro s; simp [insertAllSorted]
  | cons i rest ih =>
    intro s
    show m ∈ insertAllSorted rest (insertSorted i s) ↔ _
    rw [ih (insertSorted i s)]
    simp only [mem_insertSorted, List.mem_cons]
    tauto

theorem sorted_insertAllSorted : ∀ (ids s : List Nat),
    List.Pairwise (· < ·) s → List.Pairwise (· < ·) (insertAllSorted ids s) := by
  intro ids
  induction ids with
  | nil => intro s h; exact h
  | cons i rest ih =>
    intro s h
    exact ih (insertSorted i s) (sorted_insertSorted h)

theorem pendLookup_cons (t : Nat) (ps : List Nat)
    (rest : List (Nat × List Nat)) (t' : Nat) :
    pendLookup ((t, ps) :: rest) t' =
      if t = t' then ps else pendLookup rest t' := by
  unfold pendLookup
  by_cases h : t = t'
  · simp [List.find?, h]
  · have hb : ((t, ps).1 == t') = false := by
      simp [h]
    simp [List.find?, hb, h]

theorem pendLookup_nil_of_lt_all {t : Nat} : ∀ {pend : List (Nat × List Nat)},
    (∀ p ∈ pend, t < p.1) → pendLookup pend t = [] := by
  intro pend
  induction pend with
  | nil => intro _; rfl
  | cons q rest ih =>
    intro h
    rcases q with ⟨t0, ps⟩
    rw [pendLookup_cons]
    have := h (t0, ps) (List.mem_cons_self _ _)
    rw [if_neg (by omega)]
    exact ih fun p hp => h p (List.mem_cons.mpr (Or.inr hp))

theorem pendLookup_pendInsert_self {txid id : Nat} :
    ∀ {pend : List (Nat × List Nat)},
    List.Pairwise (fun a b => a.1 < b.1) pend →
    pendLookup (pendInsert txid id pend) txid =
      pendLookup pend txid ++ [id] := by
  intro pend
  induction pend with
  | nil => intro _; simp [pendInsert, pendLookup, List.find?]
  | cons q rest ih =>
    intro hs
    rcases q with ⟨t0, ps⟩
    rcases List.pairwise_cons.mp hs with ⟨hhead, htail⟩
    simp only [pendInsert]
    by_cases h1 : txid < t0
    · rw [if_pos h1, pendLookup_cons, if_pos rfl, pendLookup_cons,
        if_neg (by omega)]
      rw [pendLookup_nil_of_lt_all fun p hp => by
        have := hhead p hp
        omega]
      rfl
    · by_cases h2 : txid = t0
      · subst h2
        rw [if_neg h1, if_pos rfl, pendLookup_cons, if_pos rfl,
          pendLookup_cons, if_pos rfl]
      · rw [if_neg h1, if_neg h2, pendLookup_cons, if_neg (by omega),
          pendLookup_cons, if_neg (by omega)]
        exact ih htail

theorem pendLookup_pendInsert_ne {txid id t' : Nat} (hne : t' ≠ txid) :
    ∀ {pend : List (Nat × List Nat)},
    pendLookup (pendInsert txid id pend) t' = pendLookup pend t' := by
  intro pend
  induction pend with
  | nil =>
    rw [show pendInsert txid id [] = [(txid, [id])] from rfl,
      pendLookup_cons, if_neg (by omega)]
  | cons q rest ih =>
    rcases q with ⟨t0, ps⟩
    simp only [pendInsert]
    by_cases h1 : txid < t0
    · rw [if_pos h1, pendLookup_cons, if_neg (by omega)]
    · by_cases h2 : txid = t0
      · subst h2
        rw [if_neg h1, if_pos rfl, pendLookup_cons, pendLookup_cons,
          if_neg (by omega), if_neg (by omega)]
      · rw [if_neg h1, if_neg h2, pendLookup_cons, pendLookup_cons, ih]

theorem mem_pendInsert {txid id : Nat} {p : Nat × List Nat} :
    ∀ {pend : List (Nat × List Nat)}, p ∈ pendInsert txid id pend →
    p.1 = txid ∨ ∃ q ∈ pend, p.1 = q.1 := by
  intro pend
  induction pend with
  | nil =>
    intro h
    simp only [pendInsert, List.mem_singleton] at h
    subst h
    exact Or.inl rfl
  | cons q0 rest ih =>
    rcases q0 with ⟨t0, ps⟩
    intro h
    simp only [pendInsert] at h
    by_cases h1 : txid < t0
    · rw [if_pos h1] at h
      rcases List.mem_cons.mp h with h | h
      · subst h; exact Or.inl rfl
      · rcases List.mem_cons.mp h with h | h
        · subst h; exact Or.inr ⟨(t0, ps), List.mem_cons_self _ _, rfl⟩
        · exact Or.inr ⟨p, List.mem_cons.mpr (Or.inr h), rfl⟩
    · by_cases h2 : txid = t0
      · rw [if_neg h1, if_pos h2] at h
        rcases List.mem_cons.mp h with h | h
        · subst h; exact Or.inl h2.symm
        · exact Or.inr ⟨p, List.mem_cons.mpr (Or.inr h), rfl⟩
      · rw [if_neg h1, if_neg h2] at h
        rcases List.mem_cons.mp h with h | h
        · subst h; exact Or.inr ⟨(t0, ps), List.mem_cons_self _ _, rfl⟩
        · rcases ih h with h | ⟨q, hq, hpq⟩
          · exact Or.inl h
          · exact Or.inr ⟨q, List.mem_cons.mpr (Or.inr hq), hpq⟩

theorem vals_pendInsert {txid id : Nat} {p : Nat × List Nat} {m : Nat} :
    ∀ {pend : List (Nat × List Nat)}, p ∈ pendInsert txid id pend →
    m ∈ p.2 → m = id ∨ ∃ q ∈ pend, m ∈ q.2 := by
  intro pend
  induction pend with
  | nil =>
    intro hp hm
    simp only [pendInsert, List.mem_singleton] at hp
    subst hp
    simp only [List.mem_singleton] at hm
    exact Or.inl hm
  | cons q0 rest ih =>
    rcases q0 with ⟨t0, ps⟩
    intro hp hm
    simp only [pendInsert] at hp
    by_cases h1 : txid < t0
    · rw [if_pos h1] at hp
      rcases List.mem_cons.mp hp with h | h
      · subst h
        simp only [List.mem_singleton] at hm
        exact Or.inl hm
      · rcases List.mem_cons.mp h with h | h
        · subst h
          exact Or.inr ⟨(t0, ps), List.mem_cons_self _ _, hm⟩
        · exact Or.inr ⟨p, List.mem_cons.mpr (Or.inr h), hm⟩
    · by_cases h2 : txid = t0
      · rw [if_neg h1, if_pos h2] at hp
        rcases List.mem_cons.mp hp with h | h
        · subst h
          simp only [List.mem_append, List.mem_singleton] at hm
          rcases hm with hm | hm
          · exact Or.inr ⟨(t0, ps), List.mem_cons_self _ _, hm⟩
          · exact Or.inl hm
        · exact Or.inr ⟨p, List.mem_cons.mpr (Or.inr h), hm⟩
      · rw [if_neg h1, if_neg h2] at hp
        rcases List.mem_cons.mp hp with h | h
        · subst h
          exact Or.inr ⟨(t0, ps), List.mem_cons_self _ _, hm⟩
        · rcases ih h hm with h | ⟨q, hq, hmq⟩
          · exact Or.inl h
          · exact Or.inr ⟨q, List.mem_cons.mpr (Or.inr hq), hmq⟩

theorem sortedKeys_pendInsert {txid id : Nat} :
    ∀ {pend : List (Nat × List Nat)},
    List.Pairwise (fun a b => a.1 < b.1) pend →
    List.Pairwise (fun a b => a.1 < b.1) (pendInsert txid id pend) := by
  intro pend
  induction pend with
  | nil => intro _; simp [pendInsert]
  | cons q0 rest ih =>
    rcases q0 with ⟨t0, ps⟩
    intro hs
    rcases List.pairwise_cons.mp hs with ⟨hhead, htail⟩
    simp only [pendInsert]
    by_cases h1 : txid < t0
    · rw [if_pos h1]
      refine List.pairwise_cons.mpr ⟨?_, hs⟩
      intro b hb
      rcases List.mem_cons.mp hb with h | h
      · subst h; exact h1
      · have := hhead b h
        simp only at this ⊢
        omega
    · by_cases h2 : txid = t0
      · rw [if_neg h1, if_pos h2]
        exact List.pairwise_cons.mpr ⟨hhead, htail⟩
      · rw [if_neg h1, if_neg h2]
        refine List.pairwise_cons.mpr ⟨?_, ih htail⟩
        intro b hb
        rcases mem_pendInsert hb with h | ⟨q, hq, hbq⟩
        · simp only at h ⊢
          omega
        · rw [hbq]
          exact hhead q hq

theorem pendLookup_mem {pend : List (Nat × List Nat)} {t m : Nat}
    (h : m ∈ pendLookup pend t) :
    ∃ p ∈ pend, p.1 = t ∧ m ∈ p.2 := by
  unfold pendLookup at h
  rcases hf : pend.find? (fun p => p.1 == t) with _ | p
  · rw [hf] at h
    exact absurd h (List.not_mem_nil m)
  · rw [hf] at h
    have hmem := List.mem_of_find?_eq_some hf
    have hp := List.find?_some hf
    simp only [beq_iff_eq] at hp
    exact ⟨p, hmem, hp, h⟩

theorem mem_pendLookup_of {p : Nat × List Nat} :
    ∀ {pend : List (Nat × List Nat)},
    List.Pairwise (fun a b => a.1 < b.1) pend → p ∈ pend →
    pendLookup pend p.1 = p.2 := by
  intro pend
  induction pend with
  | nil => intro _ hp; exact absurd hp (List.not_mem_nil p)
  | cons q rest ih =>
    intro hs hp
    rcases q with ⟨t0, ps⟩
    rcases List.pairwise_cons.mp hs with ⟨hhead, htail⟩
    rcases List.mem_cons.mp hp with h | h
    · subst h
      rw [pendLookup_cons, if_pos rfl]
    · have h2 : t0 < p.1 := hhead p h
      rw [pendLookup_cons, if_neg (by omega)]
      exact ih htail h

theorem releaseGo_pending {u : Nat} :
    ∀ (pend : List (Nat × List Nat)) (free : List Nat),
    List.Pairwise (fun a b => a.1 < b.1) pend →
    (releaseGo pend u free).1 = pend.filter (fun p => decide (u ≤ p.1)) := by
  intro pend
  induction pend with
  | nil => intro free _; rfl
  | cons q rest ih =>
    intro free hs
    rcases q with ⟨t0, ps⟩
    rcases List.pairwise_cons.mp hs with ⟨hhead, htail⟩
    simp only [releaseGo]
    by_cases h : t0 < u
    · rw [if_pos h, ih (insertAllSorted ps free) htail, List.filter_cons,
        if_neg (by simp only [decide_eq_true_eq]; omega)]
    · rw [if_neg h, List.filter_cons,
        if_pos (by simp only [decide_eq_true_eq]; omega)]
      show (t0, ps) :: rest = (t0, ps) :: rest.filter (fun p => decide (u ≤ p.1))
      congr 1
      symm
      refine List.filter_eq_self.mpr ?_
      intro p hp
      have h2 : t0 < p.1 := hhead p hp
      simp only [decide_eq_true_eq]
      omega

theorem releaseGo_free_mem {u m : Nat} :
    ∀ (pend : List (Nat × List Nat)) (free : List Nat),
    List.Pairwise (fun a b => a.1 < b.1) pend →
    (m ∈ (releaseGo pend u free).2 ↔
      m ∈ free ∨ ∃ p ∈ pend, p.1 < u ∧ m ∈ p.2) := by
  intro pend
  induction pend with
  | nil =>
    intro free _
    simp [releaseGo]
  | cons q rest ih =>
    intro free hs
    rcases q with ⟨t0, ps⟩
    rcases List.pairwise_cons.mp hs with ⟨hhead, htail⟩
    simp only [releaseGo]
    by_cases h : t0 < u
    · rw [if_pos h, ih (insertAllSorted ps free) htail, mem_insertAllSorted]
      constructor
      · rintro ((hm | hm) | ⟨p, hp, hlt, hmp⟩)
        · exact Or.inr ⟨(t0, ps), List.mem_cons_self _ _, h, hm⟩
        · exact Or.inl hm
        · exact Or.inr ⟨p, List.mem_cons.mpr (Or.inr hp), hlt, hmp⟩
      · rintro (hm | ⟨p, hp, hlt, hmp⟩)
        · exact Or.inl (Or.inr hm)
        · rcases List.mem_cons.mp hp with hq | hq
          · subst hq
            exact Or.inl (Or.inl hmp)
          · exact Or.inr ⟨p, hq, hlt, hmp⟩
    · rw [if_neg h]
      constructor
      · intro hm
        exact Or.inl hm
      · rintro (hm | ⟨p, hp, hlt, hmp⟩)
        · exact hm
        · rcases List.mem_cons.mp hp with hq | hq
          · subst hq
            exact absurd hlt h
          · have h2 : t0 < p.1 := hhead p hq
            exact absurd hlt (by omega)

theorem releaseGo_free_sorted {u : Nat} :
    ∀ (pend : List (Nat × List Nat)) (free : List Nat),
    List.Pairwise (· < ·) free →
    List.Pairwise (· < ·) (releaseGo pend u free).2 := by
  intro pend
  induction pend with
  | nil => intro free h; exact h
  | cons q rest ih =>
    intro free h
    rcases q with ⟨t0, ps⟩
    simp only [releaseGo]
    by_cases hlt : t0 < u
    · rw [if_pos hlt]
      exact ih _ (sorted_insertAllSorted ps free h)
    · rw [if_neg hlt]
      exact h

theorem pendLookup_filter_ge {u t : Nat} (h : u ≤ t) :
    ∀ (pend : List (Nat × List Nat)),
    pendLookup (pend.filter (fun p => decide (u ≤ p.1))) t
      = pendLookup pend t := by
  intro pend
  induction pend with
  | nil => rfl
  | cons q rest ih =>
    rcases q with ⟨t0, ps⟩
    by_cases h0 : u ≤ t0
    · rw [show ((t0, ps) :: rest).filter (fun p => decide (u ≤ p.1)) =
          (t0, ps) :: rest.filter (fun p => decide (u ≤ p.1)) from by
        simp [List.filter_cons, h0]]
      rw [pendLookup_cons, pendLookup_cons, ih]
    · rw [show ((t0, ps) :: rest).filter (fun p => decide (u ≤ p.1)) =
          rest.filter (fun p => decide (u ≤ p.1)) from by
        simp [List.filter_cons, h0]]
      rw [ih, pendLookup_cons, if_neg (by omega)]

theorem allocLoop_zero : ∀ (xs : List Nat) (start prev : Nat),
    allocLoop 0 xs start prev = 0 := by
  intro xs
  induction xs with
  | nil => intro start prev; rfl
  | cons id rest ih =>
    intro start prev
    by_cases hc : prev = 0 ∨ id - prev ≠ 1
    · rw [allocLoop_cons_jump start hc, if_neg (by omega)]
      exact ih _ _
    · push_neg at hc
      rw [allocLoop_cons_consec start hc.1 (by omega), if_neg (by omega)]
      exact ih _ _

theorem allocate_pending_eq (fl : Freelist) (n : Nat) :
    (fl.allocate n).2.pending = fl.pending := by
  unfold Freelist.allocate
  by_cases h : fl.freePages = []
  · rw [if_pos h]
  · rw [if_neg h]
    by_cases h2 : 0 < allocLoop n fl.freePages 0 0
    · simp only [if_pos h2]
    · simp only [if_neg h2]

theorem allocate_free_sub (fl : Freelist) (n : Nat) :
    ∀ m ∈ (fl.allocate n).2.freePages, m ∈ fl.freePages := by
  unfold Freelist.allocate
  by_cases h : fl.freePages = []
  · rw [if_pos h]
    intro m hm
    exact hm
  · rw [if_neg h]
    by_cases h2 : 0 < allocLoop n fl.freePages 0 0
    · simp only [if_pos h2]
      intro m hm
      exact List.mem_of_mem_filter hm
    · simp only [if_neg h2]
      intro m hm
      exact hm

theorem allocate_free_cases (fl : Freelist) (n : Nat) :
    (fl.allocate n).2.freePages = fl.freePages ∨
    ∃ p, (fl.allocate n).2.freePages = fl.freePages.filter p := by
  unfold Freelist.allocate
  by_cases h : fl.freePages = []
  · rw [if_pos h]
    exact Or.inl rfl
  · rw [if_neg h]
    by_cases h2 : 0 < allocLoop n fl.freePages 0 0
    · simp only [if_pos h2]
      exact Or.inr ⟨_, rfl⟩
    · simp only [if_neg h2]
      simp

theorem allocate_some_mem (fl : Freelist) (n s : Nat)
    (hsort : List.Pairwise (· < ·) fl.freePages)
    (hids : ∀ x ∈ fl.freePages, 2 ≤ x)
    (h : (fl.allocate n).1 = some s) :
    ∀ j, j < n → s + j ∈ fl.freePages := by
  rcases Nat.eq_zero_or_pos n with hn | hn
  · subst hn
    intro j hj
    omega
  · by_cases hnil : fl.freePages = []
    · unfold Freelist.allocate at h
      rw [if_pos hnil] at h
      simp at h
    · unfold Freelist.allocate at h
      rw [if_neg hnil] at h
      by_cases h2 : 0 < allocLoop n fl.freePages 0 0
      · simp only [if_pos h2] at h
        have hs : allocLoop n fl.freePages 0 0 = s := Option.some.inj h
        rw [← hs]
        exact ((allocLoop_initial n hn fl.freePages hsort hids).2 h2).1
      · simp only [if_neg h2] at h
        simp at h

theorem freelistWf_free {fl : Freelist} {t i : Nat}
    (hwf : FreelistWf fl) (hi : 2 ≤ i) :
    FreelistWf (fl.free t i) := by
  rcases hwf with ⟨h1, h2, h3, h4⟩
  refine ⟨h1, sortedKeys_pendInsert h2, h3, ?_⟩
  intro p hp m hm
  rcases vals_pendInsert hp hm with h | ⟨q, hq, hmq⟩
  · omega
  · exact h4 q hq m hmq

theorem freelistWf_release {fl : Freelist} {u : Nat} (hwf : FreelistWf fl) :
    FreelistWf (fl.release u) := by
  rcases hwf with ⟨h1, h2, h3, h4⟩
  have hpend : (fl.release u).pending
      = (releaseGo fl.pending u fl.freePages).1 := rfl
  have hfree : (fl.release u).freePages
      = (releaseGo fl.pending u fl.freePages).2 := rfl
  refine ⟨?_, ?_, ?_, ?_⟩
  · rw [hfree]
    exact releaseGo_free_sorted fl.pending fl.freePages h1
  · rw [hpend, releaseGo_pending fl.pending fl.freePages h2]
    exact List.Pairwise.sublist (List.filter_sublist _) h2
  · intro m hm
    rw [hfree] at hm
    rcases (releaseGo_free_mem fl.pending fl.freePages h2).mp hm with
      h | ⟨p, hp, _, hmp⟩
    · exact h3 m h
    · exact h4 p hp m hmp
  · intro p hp m hm
    rw [hpend, releaseGo_pending fl.pending fl.freePages h2] at hp
    exact h4 p (List.mem_of_mem_filter hp) m hm

theorem freelistWf_allocate {fl : Freelist} {n : Nat} (hwf : FreelistWf fl) :
    FreelistWf (fl.allocate n).2 := by
  rcases hwf with ⟨h1, h2, h3, h4⟩
  refine ⟨?_, ?_, ?_, ?_⟩
  · rcases allocate_free_cases fl n with h | ⟨p, h⟩
    · rw [h]
      exact h1
    · rw [h]
      exact List.Pairwise.sublist (List.filter_sublist _) h1
  · rw [allocate_pending_eq]
    exact h2
  · intro m hm
    exact h3 m (allocate_free_sub fl n m hm)
  · rw [allocate_pending_eq]
    exact h4

theorem pendingHeld_free {fl : Freelist} {T id0 t i : Nat}
    (hwf : FreelistWf fl) (hheld : PendingHeld T id0 fl) (hne : i ≠ id0) :
    PendingHeld T id0 (fl.free t i) := by
  rcases hwf with ⟨_, h2, _, _⟩
  rcases hheld with ⟨hin, hnf, hother⟩
  have hpend : (fl.free t i).pending = pendInsert t i fl.pending := rfl
  refine ⟨?_, hnf, ?_⟩
  · by_cases ht : t = T
    · subst ht
      rw [hpend, pendLookup_pendInsert_self h2]
      exact List.mem_append.mpr (Or.inl hin)
    · rw [hpend, pendLookup_pendInsert_ne (fun hc => ht hc.symm)]
      exact hin
  · intro t' ht'
    rw [hpend]
    intro hc
    by_cases htt : t' = t
    · subst htt
      rw [pendLookup_pendInsert_self h2] at hc
      rcases List.mem_append.mp hc with h | h
      · exact hother t' ht' h
      · simp only [List.mem_singleton] at h
        exact hne h.symm
    · rw [pendLookup_pendInsert_ne htt] at hc
      exact hother t' ht' hc

theorem pendingHeld_release {fl : Freelist} {T id0 u : Nat}
    (hwf : FreelistWf fl) (hheld : PendingHeld T id0 fl) (hu : u ≤ T) :
    PendingHeld T id0 (fl.release u) := by
  rcases hwf with ⟨_, h2, _, _⟩
  rcases hheld with ⟨hin, hnf, hother⟩
  have hpend : (fl.release u).pending
      = (releaseGo fl.pending u fl.freePages).1 := rfl
  have hfree : (fl.release u).freePages
      = (releaseGo fl.pending u fl.freePages).2 := rfl
  refine ⟨?_, ?_, ?_⟩
  · rw [hpend, releaseGo_pending fl.pending fl.freePages h2,
      pendLookup_filter_ge hu]
    exact hin
  · rw [hfree]
    intro hc
    rcases (releaseGo_free_mem fl.pending fl.freePages h2).mp hc with
      h | ⟨p, hp, hlt, hmp⟩
    · exact hnf h
    · have hl : pendLookup fl.pending p.1 = p.2 := mem_pendLookup_of h2 hp
      have hne : p.1 ≠ T := by omega
      refine hother p.1 hne ?_
      rw [hl]
      exact hmp
  · intro t' ht'
    rw [hpend, releaseGo_pending fl.pending fl.freePages h2]
    intro hc
    rcases pendLookup_mem hc with ⟨p, hp, hpt, hmp⟩
    have hp' : p ∈ fl.pending := List.mem_of_mem_filter hp
    have hl : pendLookup fl.pending p.1 = p.2 := mem_pendLookup_of h2 hp'
    refine hother t' ht' ?_
    rw [← hpt, hl]
    exact hmp

theorem pendingHeld_allocate {fl : Freelist} {T id0 n : Nat}
    (hheld : PendingHeld T id0 fl) :
    PendingHeld T id0 (fl.allocate n).2 := by
  rcases hheld with ⟨hin, hnf, hother⟩
  refine ⟨?_, ?_, ?_⟩
  · rw [allocate_pending_eq]
    exact hin
  · intro hc
    exact hnf (allocate_free_sub fl n id0 hc)
  · intro t' ht'
    rw [allocate_pending_eq]
    exact hother t' ht'

theorem foldl_held (T id0 : Nat) :
    ∀ (ops : List FOp) (fl : Freelist),
    FreelistWf fl → PendingHeld T id0 fl →
    (∀ op ∈ ops, OkOp T id0 op) →
    FreelistWf (ops.foldl applyFOp fl) ∧
    PendingHeld T id0 (ops.foldl applyFOp fl) := by
  intro ops
  induction ops with
  | nil =>
    intro fl hwf hheld _
    exact ⟨hwf, hheld⟩
  | cons op rest ih =>
    intro fl hwf hheld hok
    rw [List.foldl_cons]
    have hop := hok op (List.mem_cons_self _ _)
    have hrest : ∀ o ∈ rest, OkOp T id0 o :=
      fun o ho => hok o (List.mem_cons.mpr (Or.inr ho))
    cases op with
    | freeOp t i =>
      rcases hop with ⟨hi2, hine⟩
      exact ih _ (freelistWf_free hwf hi2)
        (pendingHeld_free hwf hheld hine) hrest
    | releaseOp u =>
      exact ih _ (freelistWf_release hwf)
        (pendingHeld_release hwf hheld hop) hrest
    | allocOp n =>
      exact ih _ (freelistWf_allocate hwf)
        (pendingHeld_allocate hheld) hrest

theorem allocate_fst_congr (fl fl2 : Freelist)
    (h : fl2.freePages = fl.freePages) (n : Nat) :
    (fl2.allocate n).1 = (fl.allocate n).1 := by
  unfold Freelist.allocate
  rw [h]
  by_cases hnil : fl.freePages = []
  · rw [if_pos hnil, if_pos hnil]
  · rw [if_neg hnil, if_neg hnil]
    by_cases h2 : 0 < allocLoop n fl.freePages 0 0
    · simp [if_pos h2]
    · simp [if_neg h2]

/-- C2: `free(tx_id, id)` appends `id` to the pending queue keyed by
`tx_id` and changes neither the free set, any other pending queue, nor
what `allocate` returns; `release(up_to_tx_id)` moves into `free_pages`
exactly the pending entries of transactions `t < up_to_tx_id` and keeps
the pending entries with `t ≥ up_to_tx_id`; and a page freed under
transaction `T` is never part of a block returned by `allocate` as long
as only frees of other pages, releases up to `T`, and allocations occur
(that is, before any `release(u)` with `u > T`). -/
theorem spec_C2_freelist_lifecycle (fl : Freelist) (txid id u T id0 : Nat)
    (ops : List FOp) (hwf : FreelistWf fl) :
    ((fl.free txid id).freePages = fl.freePages ∧
     (∀ n, ((fl.free txid id).allocate n).1 = (fl.allocate n).1) ∧
     pendLookup (fl.free txid id).pending txid
       = pendLookup fl.pending txid ++ [id] ∧
     (∀ t', t' ≠ txid →
       pendLookup (fl.free txid id).pending t' = pendLookup fl.pending t')) ∧
    ((fl.release u).pending
       = fl.pending.filter (fun p => decide (u ≤ p.1)) ∧
     (∀ m, m ∈ (fl.release u).freePages ↔
       m ∈ fl.freePages ∨ ∃ p ∈ fl.pending, p.1 < u ∧ m ∈ p.2)) ∧
    (PendingHeld T id0 fl → (∀ op ∈ ops, OkOp T id0 op) →
      PendingHeld T id0 (ops.foldl applyFOp fl) ∧
      ∀ n s, ((ops.foldl applyFOp fl).allocate n).1 = some s →
        ¬ (s ≤ id0 ∧ id0 < s + n)) := by
  have hkeys : List.Pairwise (fun a b => a.1 < b.1) fl.pending := hwf.2.1
  refine ⟨⟨rfl, fun n => allocate_fst_congr fl (fl.free txid id) rfl n,
    pendLookup_pendInsert_self hkeys,
    fun t' ht' => pendLookup_pendInsert_ne ht'⟩,
    ⟨releaseGo_pending fl.pending fl.freePages hkeys,
     fun m => releaseGo_free_mem fl.pending fl.freePages hkeys⟩, ?_⟩
  intro hheld hok
  have h := foldl_held T id0 ops fl hwf hheld hok
  refine ⟨h.2, ?_⟩
  intro n s hsome hcontra
  rcases h.1 with ⟨hsort, _, hids, _⟩
  rcases h.2 with ⟨_, hnf, _⟩
  have hmem := allocate_some_mem _ n s hsort hids hsome (id0 - s)
    (by omega)
  rw [show s + (id0 - s) = id0 from by omega] at hmem
  exact hnf hmem

theorem spec_C2_witness :
    FreelistWf ⟨[4, 5], [(3, [7])]⟩ ∧
    pendLookup (Freelist.free ⟨[4, 5], [(3, [7])]⟩ 3 9).pending 3
      = [7, 9] := by
  have h := spec_C2_freelist_lifecycle ⟨[4, 5], [(3, [7])]⟩ 3 9 4 3 7 []
    (by unfold FreelistWf; decide)
  refine ⟨by unfold FreelistWf; decide, ?_⟩
  rw [h.1.2.2.1]
  decide

/-- C3 (amended): when neither meta slot has a valid hash,
`DBInner::meta` does not return `Err(InvalidDB(..))` — it panics with
`NO VALID META PAGES`. -/
theorem spec_C3_invalid_metas_panic (ps : Nat) (m1 m2 : MetaRec)
    (h1 : m1.valid = false) (h2 : m2.valid = false) :
    dbMeta ps m1 m2 = .panicked "NO VALID META PAGES" ∧
    ∀ r : MetaResult, dbMeta ps m1 m2 ≠ .returned r := by
  have hmain : dbMeta ps m1 m2 = .panicked "NO VALID META PAGES" := by
    unfold dbMeta
    rw [if_neg (by simp [h1]), h1, h2]
  refine ⟨hmain, ?_⟩
  intro r h
  rw [hmain] at h
  exact OpenOutcome.noConfusion h

set_option maxRecDepth 100000 in
theorem spec_C3_witness :
    MetaRec.valid invalidMeta = false ∧
    dbMeta 1024 invalidMeta invalidMeta
      = OpenOutcome.panicked "NO VALID META PAGES" :=
  ⟨by decide, (spec_C3_invalid_metas_panic 1024 invalidMeta invalidMeta
    (by decide) (by decide)).1⟩

set_option maxRecDepth 100000 in
theorem spec_C3_counterexample :
    MetaRec.valid invalidMeta = false ∧
    dbMeta 1024 invalidMeta invalidMeta
      = OpenOutcome.panicked "NO VALID META PAGES" ∧
    ∀ r : MetaResult, dbMeta 1024 invalidMeta invalidMeta
      ≠ OpenOutcome.returned r := by
  refine ⟨by decide, by decide, ?_⟩
  intro r h
  rw [show dbMeta 1024 invalidMeta invalidMeta
    = OpenOutcome.panicked "NO VALID META PAGES" from by decide] at h
  exact OpenOutcome.noConfusion h

/-- C4 (amended): `DBInner::meta` never examines `magic` or `version`:
any meta record whose hash validates and whose recorded pagesize matches
the configured one is accepted at open, whatever its magic and version
fields hold. -/
theorem spec_C4_magic_version_unchecked (ps : Nat) (m : MetaRec)
    (hv : m.valid = true) (hps : m.pagesize = ps) :
    dbMeta ps m m = .returned (.okM m) := by
  unfold dbMeta
  rw [if_neg (by simp [hps]), hv]
  simp [hps]

set_option maxRecDepth 100000 in
theorem spec_C4_witness :
    dbMeta 1024 strangeMeta strangeMeta
      = OpenOutcome.returned (MetaResult.okM strangeMeta) :=
  spec_C4_magic_version_unchecked 1024 strangeMeta (by decide) (by decide)

set_option maxRecDepth 100000 in
theorem spec_C4_counterexample :
    strangeMeta.magic ≠ MAGIC_VALUE ∧
    strangeMeta.version ≠ VERSION ∧
    MetaRec.valid strangeMeta = true ∧
    dbMeta 1024 strangeMeta strangeMeta
      = OpenOutcome.returned (MetaResult.okM strangeMeta) :=
  ⟨by decide, by decide, by decide, by decide⟩

theorem ptSizeList_append : ∀ (a b : List PageTree),
    ptSizeList (a ++ b) = ptSizeList a + ptSizeList b := by
  intro a
  induction a with
  | nil => intro b; simp [ptSizeList]
  | cons x xs ih =>
    intro b
    rw [List.cons_append]
    simp only [ptSizeList]
    rw [ih b]
    omega

theorem ptSizeList_reverse : ∀ (a : List PageTree),
    ptSizeList a.reverse = ptSizeList a := by
  intro a
  induction a with
  | nil => rfl
  | cons x xs ih =>
    rw [List.reverse_cons, ptSizeList_append]
    simp only [ptSizeList]
    omega

theorem reachableList_append : ∀ (a b : List PageTree),
    reachableList (a ++ b) = reachableList a ++ reachableList b := by
  intro a
  induction a with
  | nil => intro b; simp [reachableList]
  | cons x xs ih =>
    intro b
    rw [List.cons_append]
    simp only [reachableList]
    rw [ih b, List.append_assoc]

theorem reachableList_reverse_perm : ∀ (l : List PageTree),
    (reachableList l.reverse).Perm (reachableList l) := by
  intro l
  induction l with
  | nil => exact List.Perm.refl _
  | cons t ts ih =>
    rw [List.reverse_cons, reachableList_append]
    simp only [reachableList, List.append_nil]
    refine List.Perm.trans (List.perm_append_comm) ?_
    exact List.Perm.append_left _ ih

theorem walkFree_perm (stack : List PageTree) :
    (walkFree stack).Perm (reachableList stack) := by
  generalize hn : ptSizeList stack = n
  induction n using Nat.strong_induction_on generalizing stack with
  | _ n ih =>
    cases stack with
    | nil =>
      simp [walkFree, reachableList]
    | cons t ts =>
      cases t with
      | branchP id ov cs =>
        rw [show walkFree (PageTree.branchP id ov cs :: ts)
            = (id, ov + 1) :: walkFree (cs.reverse ++ ts) from by
          rw [walkFree]]
        have hsz : ptSizeList (cs.reverse ++ ts) < n := by
          rw [← hn, ptSizeList_append, ptSizeList_reverse]
          simp only [ptSizeList, ptSize]
          omega
        refine List.Perm.trans
          (List.Perm.cons _ (ih _ hsz (cs.reverse ++ ts) rfl)) ?_
        rw [reachableList_append]
        simp only [reachableList, reachable, List.cons_append]
        exact List.Perm.cons _
          (List.Perm.append_right _ (reachableList_reverse_perm cs))
      | leafP id ov subs =>
        rw [show walkFree (PageTree.leafP id ov subs :: ts)
            = (id, ov + 1) :: walkFree (subs.reverse ++ ts) from by
          rw [walkFree]]
        have hsz : ptSizeList (subs.reverse ++ ts) < n := by
          rw [← hn, ptSizeList_append, ptSizeList_reverse]
          simp only [ptSizeList, ptSize]
          omega
        refine List.Perm.trans
          (List.Perm.cons _ (ih _ hsz (subs.reverse ++ ts) rfl)) ?_
        rw [reachableList_append]
        simp only [reachableList, reachable, List.cons_append]
        exact List.Perm.cons _
          (List.Perm.append_right _ (reachableList_reverse_perm subs))

/-- C6: for a committed sub-bucket (`root_page ≠ 0`, page tree `t`),
`delete_bucket` frees exactly the pages reachable from the root: the
freed `(page_id, count)` pairs are a permutation of the reachable ones,
and so are the individual page ids once each pair is expanded to its
`count` consecutive pages (the page itself plus its overflow pages); a
sub-bucket created in this transaction with `root_page` still 0 frees
nothing. -/
theorem spec_C6_delete_bucket_frees_reachable (t : PageTree) :
    (deleteBucketFreedPages (some t)).Perm (reachable t) ∧
    (expandPages (deleteBucketFreedPages (some t))).Perm
      (expandPages (reachable t)) ∧
    deleteBucketFreedPages none = [] := by
  have h1 : (deleteBucketFreedPages (some t)).Perm (reachable t) := by
    have h := walkFree_perm [t]
    simp only [reachableList, List.append_nil] at h
    exact h
  refine ⟨h1, ?_, rfl⟩
  exact (h1.map (fun p => List.range' p.1 p.2)).join

theorem splitByRev_append {α : Type} :
    ∀ (a b : List Nat) (l : List α),
    splitByRev l (a ++ b)
      = ((splitByRev (splitByRev l a).1 b).1,
         (splitByRev l a).2 ++ (splitByRev (splitByRev l a).1 b).2) := by
  intro a
  induction a with
  | nil =>
    intro b l
    simp [splitByRev]
  | cons i rest ih =>
    intro b l
    simp only [List.cons_append, splitByRev]
    rw [show List.append rest b = rest ++ b from rfl, ih b (l.take i)]

theorem splitWalk_ascending (threshold : Nat) :
    ∀ (sizes : List Nat) (i cs cnt : Nat),
    List.Pairwise (· < ·) (splitWalk threshold sizes i cs cnt) ∧
    (∀ j ∈ splitWalk threshold sizes i cs cnt,
      i < j ∧ j ≤ i + sizes.length) := by
  intro sizes
  induction sizes with
  | nil =>
    intro i cs cnt
    exact ⟨List.Pairwise.nil, fun j hj => absurd hj (List.not_mem_nil j)⟩
  | cons s rest ih =>
    intro i cs cnt
    simp only [splitWalk]
    by_cases hc : MIN_KEYS_PER_NODE ≤ cnt + 1 ∧ threshold < cs + s
    · rw [if_pos hc]
      rcases ih (i + 1) (HEADER_SIZE + s) 0 with ⟨hpw, hbnd⟩
      constructor
      · refine List.pairwise_cons.mpr ⟨?_, hpw⟩
        intro j hj
        exact (hbnd j hj).1
      · intro j hj
        simp only [List.length_cons]
        rcases List.mem_cons.mp hj with h | h
        · omega
        · have := hbnd j h
          simp only [List.length_cons] at this ⊢
          omega
    · rw [if_neg hc]
      rcases ih (i + 1) (cs + s) (cnt + 1) with ⟨hpw, hbnd⟩
      refine ⟨hpw, ?_⟩
      intro j hj
      have := hbnd j hj
      simp only [List.length_cons]
      omega

theorem splitByRev_sliceChunks {α : Type} :
    ∀ (idxs : List Nat) (l : List α), List.Pairwise (· < ·) idxs →
    (splitByRev l idxs.reverse).1 = l.take (idxs.headD l.length) ∧
    (splitByRev l idxs.reverse).2.reverse = sliceChunks l idxs := by
  intro idxs
  induction idxs with
  | nil =>
    intro l _
    constructor
    · show l = l.take l.length
      rw [List.take_length]
    · rfl
  | cons i1 rest ih =>
    intro l hp
    rcases List.pairwise_cons.mp hp with ⟨hhead, htail⟩
    rw [List.reverse_cons, splitByRev_append]
    rcases ih l htail with ⟨h1, h2⟩
    constructor
    · show (splitByRev (splitByRev l rest.reverse).1 [i1]).1
        = l.take ((i1 :: rest).headD l.length)
      rw [show ∀ (x : List α), (splitByRev x [i1]).1 = x.take i1 from
        fun x => rfl]
      rw [h1]
      cases rest with
      | nil =>
        show (l.take l.length).take i1 = l.take i1
        rw [List.take_length]
      | cons i2 rest2 =>
        show (l.take i2).take i1 = l.take i1
        rw [List.take_take]
        congr 1
        have : i1 < i2 := hhead i2 (List.mem_cons_self _ _)
        omega
    · show ((splitByRev l rest.reverse).2
          ++ (splitByRev (splitByRev l rest.reverse).1 [i1]).2).reverse
        = sliceChunks l (i1 :: rest)
      rw [show (splitByRev (splitByRev l rest.reverse).1 [i1]).2
          = [(splitByRev l rest.reverse).1.drop i1] from rfl]
      rw [List.reverse_append, h1, h2]
      simp only [List.reverse_cons, List.reverse_nil, List.nil_append,
        List.singleton_append]
      cases rest with
      | nil =>
        show [(l.take l.length).drop i1] = [l.drop i1]
        rw [List.take_length]
      | cons i2 rest2 =>
        show (l.take i2).drop i1 :: sliceChunks l (i2 :: rest2)
          = (l.drop i1).take (i2 - i1) :: sliceChunks l (i2 :: rest2)
        congr 1
        rw [List.drop_take]

/-- C8 (amended): `Node::split` conforms to the spec sentence once "size
exceeds one page" is read as "size is at least one page" and the
cut-index walk stops before the final two entries: it leaves the node
whole when `len ≤ 2·MIN_KEYS_PER_NODE` or the serialized size is below
`pagesize` (or the walk finds no cut); otherwise the node keeps the
slice left of the first cut and the remaining slices between consecutive
cut indices become the new siblings in left-to-right order. -/
theorem spec_C8_split_amended (pagesize : Nat) (data : NodeData) :
    nodeSplit pagesize data = splitSpecAmended pagesize data := by
  unfold nodeSplit splitSpecAmended
  by_cases hg : data.len ≤ MIN_KEYS_PER_NODE * 2 ∨ nodeSize data < pagesize
  · rw [if_pos hg, if_pos hg]
  · rw [if_neg hg, if_neg hg]
    rcases hidx : splitIndexes (pagesize / 2) (elemSizes data) with
      _ | ⟨i1, restIdx⟩
    · simp [hidx]
    · have hasc : List.Pairwise (· < ·) (i1 :: restIdx) := by
        rw [← hidx]
        unfold splitIndexes
        exact (splitWalk_ascending _ _ 0 HEADER_SIZE 0).1
      simp only [hidx]
      rw [if_neg (List.cons_ne_nil i1 restIdx)]
      cases data with
      | branches bs =>
        rcases splitByRev_sliceChunks (i1 :: restIdx) bs hasc with ⟨h1, h2⟩
        simp only [splitApply]
        rw [h1, h2, List.headD_cons]
      | leaves ls =>
        rcases splitByRev_sliceChunks (i1 :: restIdx) ls hasc with ⟨h1, h2⟩
        simp only [splitApply]
        rw [h1, h2, List.headD_cons]

set_option maxRecDepth 100000 in
theorem spec_C8_counterexample :
    (nodeSize ex1data = 1024 ∧
     splitSpecLiteral 1024 ex1data = none ∧
     nodeSplit 1024 ex1data
       = some (.leaves (List.replicate 3 ex1entry),
               [.leaves (List.replicate 3 ex1entry)])) ∧
    (nodeSplit 1024 ex2data
       = some (.leaves (List.replicate 2 ex2entry),
               [.leaves (List.replicate 3 ex2entry)]) ∧
     splitSpecLiteral 1024 ex2data
       = some (.leaves (List.replicate 2 ex2entry),
               [.leaves (List.replicate 2 ex2entry),
                .leaves (List.replicate 1 ex2entry)])) := by
  refine ⟨⟨by decide, by decide, by decide⟩, by decide, by decide⟩

theorem spec_C1_witness :
    innerGet ⟨PTree.leafN [Entry.kv [1] [5]], 1, []⟩ [1]
      = some (.kv [1] [5]) ∧
    (∃ st2, innerPut ⟨PTree.leafN [Entry.kv [1] [9]], 1, []⟩ [1] [7]
      = (.ok (some ([1], [9])), st2)) ∧
    innerGet ⟨PTree.leafN [], 1, []⟩ [1] = none := by
  have h := spec_C1_put_get_delete_roundtrip
    ⟨PTree.leafN [Entry.kv [1] [2]], 1, []⟩ [1] [5] [9] [7]
    (WfT.leaf (by decide))
  exact ⟨h.1 (some ([1], [2])) ⟨PTree.leafN [Entry.kv [1] [5]], 1, []⟩ rfl,
    h.2.1 (some ([1], [2])) ⟨PTree.leafN [Entry.kv [1] [9]], 1, []⟩ rfl,
    h.2.2 ([1], [2]) ⟨PTree.leafN [], 1, []⟩ rfl⟩

theorem spec_C5_witness :
    (innerPut ⟨PTree.leafN [Entry.kv [1] [2]], 5, []⟩ [1] [9]).2.nextInt
      = 5 ∧
    (innerPut ⟨PTree.leafN [Entry.kv [1] [2]], 5, []⟩ [2] [9]).2.nextInt
      = 6 ∧
    (innerDelete ⟨PTree.leafN [Entry.kv [1] [2]], 5, []⟩ [1]).2.nextInt
      = 5 := by
  have h1 := spec_C5_nextInt_monotone ⟨PTree.leafN [Entry.kv [1] [2]], 5, []⟩
    (WfT.leaf (by decide)) [1] [9] [3] true false []
  have h2 := spec_C5_nextInt_monotone ⟨PTree.leafN [Entry.kv [1] [2]], 5, []⟩
    (WfT.leaf (by decide)) [2] [9] [3] true false []
  refine ⟨?_, ?_, h1.2.2.2.1⟩
  · rw [h1.2.1]
    decide
  · rw [h2.2.1]
    decide

theorem spec_C9_witness :
    (∃ e, [Entry.kv [1] [10], Entry.kv [3] [30]].get? 1 = some e ∧
      e.key = [3]) ∧
    (∃ leafItems, SortedEntries leafItems ∧
      cursorSeek (PTree.leafN [Entry.kv [1] [10], Entry.kv [3] [30]]) [3]
        = ((indexOf leafItems [3]).2,
           .leafF leafItems (indexOf leafItems [3]).1
             (indexOf leafItems [3]).2)) := by
  have h := spec_C9_index_and_seek [Entry.kv [1] [10], Entry.kv [3] [30]]
    [3] (by decide) (PTree.leafN [Entry.kv [1] [10], Entry.kv [3] [30]])
    (WfT.leaf (by decide))
  exact ⟨h.1.1 1 (by decide), h.2⟩

theorem spec_C7_witness :
    ∃ s, (∀ j, j < 2 → s + j ∈ ([4, 5, 6, 9] : List Nat)) ∧
      (∀ u, (∀ j, j < 2 → u + j ∈ ([4, 5, 6, 9] : List Nat)) → s ≤ u) ∧
      (Freelist.allocate ⟨[4, 5, 6, 9], []⟩ 2).1 = some s ∧
      (∀ m, m ∈ (Freelist.allocate ⟨[4, 5, 6, 9], []⟩ 2).2.freePages ↔
        (m ∈ ([4, 5, 6, 9] : List Nat) ∧ ¬ (s ≤ m ∧ m < s + 2))) ∧
      (Freelist.allocate ⟨[4, 5, 6, 9], []⟩ 2).2.pending
        = ([] : List (Nat × List Nat)) :=
  (spec_C7_allocate_first_fit ⟨[4, 5, 6, 9], []⟩ 2 (by decide) (by decide)
    (by decide)).1 ⟨4, by decide⟩

end JammDB
